import Mathlib

/-!
Shallow embedding of the Raptor-Lite fountain codec (pre-coder, PRNG, packet
framer, metadata codec, encoder, belief-propagation decoder with parity
recovery) of the beammeup repository, together with theorems settling the
frozen claims about it.

Conventions of the embedding:
* JavaScript byte arrays (`Uint8Array`) are `List Nat`; stores coerce with
  `% 256` exactly as `Uint8Array` element stores do.
* 32-bit values are `Nat` with explicit `% 2 ^ 32` where JS applies `>>> 0`
  or `ToUint32`.
* Strings are represented by their UTF-8 byte lists; `TextEncoder.encode` and
  `TextDecoder.decode` are the identity on that representation.
* Fallible code (JS exceptions) returns `Option`/`Except` or an explicit
  `threw` outcome.
-/

/-- Byte-wise XOR of `p` with `q`, keeping the length of `p`.  Models the JS
loop `for i < p.length: p[i] ^= q[i]`: a missing `q[i]` is `undefined`, which
coerces to `0` under `^`, so the tail of `p` is kept unchanged. -/
def xorB : List Nat → List Nat → List Nat
  | [], _ => []
  | a :: as, [] => a :: xorB as []
  | a :: as, b :: bs => Nat.xor a b :: xorB as bs

/-- Big-endian bytes of a 32-bit value, as written by `DataView.setUint32`
(which first applies `ToUint32`, i.e. `% 2 ^ 32`). -/
def be32bytes (x : Nat) : List Nat :=
  [x / 16777216 % 256, x / 65536 % 256, x / 256 % 256, x % 256]

/-- Big-endian 32-bit read from the head of a byte list, as done by
`DataView.getUint32(·, false)`.  Callers bounds-check first, so the default
`0` branches are never reached on in-range reads. -/
def readU32 (l : List Nat) : Nat :=
  ((l.getD 0 0 * 256 + l.getD 1 0) * 256 + l.getD 2 0) * 256 + l.getD 3 0

/-- The list `[a, a+1, …, b-1]`, i.e. the indices produced by the JS loop
`for (let j = a; j < b; j++)`. -/
def jsRange (a b : Nat) : List Nat :=
  (List.range b).drop a

/-- Fuelled binary logarithm (`⌊log₂ x⌋` for `x ≥ 1`), exact whenever
`x < 2 ^ fuel`; kept structural so that the kernel can evaluate it. -/
def log2Go : Nat → Nat → Nat
  | 0, _ => 0
  | fuel + 1, x => if x ≤ 1 then 0 else log2Go fuel (x / 2) + 1

/-- `⌊log₂ x⌋`, exact for every `x < 2 ^ 128` — far beyond the `< 2 ^ 63`
products of the PRNG seed expansion it is applied to. -/
def jsLog2 (x : Nat) : Nat := log2Go 128 x

/-- Round a natural number to the nearest IEEE-754 binary64 value
(round-to-nearest, ties-to-even).  Used where JS number arithmetic leaves the
53-bit exact range (the PRNG seed expansion multiplies a 32-bit lane by
1812433253). -/
def fl64 (x : Nat) : Nat :=
  if x < 2 ^ 53 then x
  else
    let e := jsLog2 x
    let k := e - 52
    let q := x / 2 ^ k
    let r := x % 2 ^ k
    let half := 2 ^ (k - 1)
    if r < half then q * 2 ^ k
    else if half < r then (q + 1) * 2 ^ k
    else (if q % 2 = 0 then q else q + 1) * 2 ^ k

/-- xorshift128 state: the four 32-bit lanes of `createPRNG`. -/
structure Prng where
  s0 : Nat
  s1 : Nat
  s2 : Nat
  s3 : Nat

/-- `createPRNG(seed)`: each lane is `(prev * 1812433253 + 1) >>> 0`, where the
product leaves the 53-bit range and is therefore rounded by binary64
arithmetic before the `+ 1` (itself a float add) and the `>>> 0` truncation. -/
def createPRNG (seed : Nat) : Prng :=
  let s0 := seed % 2 ^ 32
  let s1 := fl64 (fl64 (s0 * 1812433253) + 1) % 2 ^ 32
  let s2 := fl64 (fl64 (s1 * 1812433253) + 1) % 2 ^ 32
  let s3 := fl64 (fl64 (s2 * 1812433253) + 1) % 2 ^ 32
  ⟨s0, s1, s2, s3⟩

/-- One step of the xorshift128 recurrence (`next()`).  Shifts and xors act on
32-bit patterns: `x << 11` is `x * 2 ^ 11 % 2 ^ 32`, `x >>> n` is `x / 2 ^ n`,
and `Nat.xor` of two values below `2 ^ 32` stays below `2 ^ 32`. -/
def prngNext (p : Prng) : Nat × Prng :=
  let t := Nat.xor p.s0 (p.s0 * 2 ^ 11 % 2 ^ 32)
  let s3 := Nat.xor (Nat.xor p.s3 (p.s3 / 2 ^ 19)) (Nat.xor t (t / 2 ^ 8))
  (s3, ⟨p.s1, p.s2, p.s3, s3⟩)

/-- The branch condition `rng.next() / 0xFFFFFFFF < 0.15` of the fountain
degree roll.  The binary64 value of the literal `0.15` is
`5404319552844595 / 2 ^ 55`, and no quotient `n / 0xFFFFFFFF` with `n < 2 ^ 32`
lies within an ulp of it (the nearest is about `6e-11` away, against an ulp of
`2 ^ (-55)`), so the float comparison coincides with the exact rational one. -/
def jsLt015 (n : Nat) : Bool :=
  n * 36028797018963968 < 5404319552844595 * 4294967295

/-- `pickUnique(n, max)`: rejection-sample `n` distinct values `next() % max`.
The JS `while` loop terminates only probabilistically, so the embedding bounds
the number of draws by a fuel parameter; no theorem in this file depends on
the values produced. -/
def pickUniqueGo (rng : Prng) (n maxv : Nat) (acc : List Nat) : Nat → List Nat
  | 0 => acc
  | fuel + 1 =>
    if acc.length < n then
      let (v, rng') := prngNext rng
      let idx := v % maxv
      if idx ∈ acc then pickUniqueGo rng' n maxv acc fuel
      else pickUniqueGo rng' n maxv (acc ++ [idx]) fuel
    else acc

/-- `rng.pickUnique(n, max)` with the standard fuel. -/
def pickUnique (rng : Prng) (n maxv : Nat) : List Nat :=
  pickUniqueGo rng n maxv [] 1000

/-- `Math.ceil(Math.sqrt(K))`: the least `g` with `K ≤ g * g` (the binary64
square root is correctly rounded and never rounds across an integer boundary
in the integer range in play, so the float ceiling is the exact one).  The
candidate list `0 … K+1` always contains such a `g` (e.g. `g = K` for
`K ≥ 1`), and the head of the filtered list is the least. -/
def ceilSqrt (K : Nat) : Nat :=
  ((List.range (K + 2)).filter (fun g => decide (K ≤ g * g))).headD K

/-- Result record of `calculateParityParams`. -/
structure ParityParams where
  G : Nat
  M : Nat
  K_prime : Nat

/-- `calculateParityParams(K)`: `G = ceil(sqrt(K))`, `M = PARITY_LAYERS * G`
with `PARITY_LAYERS = 3`, `K_prime = K + M`. -/
def calculateParityParams (K : Nat) : ParityParams :=
  let G := ceilSqrt K
  let M := 3 * G
  ⟨G, M, K + M⟩

/-- Layer 1 of `generateParityMap`: consecutive groups
`{i*G, …, min((i+1)*G, K)-1}` for `i = 0, 1, …` while `i*G < K`.  The loop
indices `i` with `i*G < K` all satisfy `i < K` when `G ≥ 1` and the condition
is antitone, so filtering `List.range K` reproduces the loop exactly. -/
def parityLayer1 (K G : Nat) : List (List Nat) :=
  ((List.range K).filter (fun i => decide (i * G < K))).map
    (fun i => jsRange (i * G) (min ((i + 1) * G) K))

/-- Layer 2: offset groups starting at `G/2 + i*G`, kept only when they have
at least 2 elements. -/
def parityLayer2 (K G : Nat) : List (List Nat) :=
  ((List.range K).filter (fun i => decide (G / 2 + i * G < K))).filterMap
    (fun i =>
      let g := jsRange (G / 2 + i * G) (min (G / 2 + i * G + G) K)
      if 2 ≤ g.length then some g else none)

/-- Layer 3: strided groups `{i, i+G, i+2G, …} ∩ [0, K)` for
`i = 0 … min(G, K) - 1`, kept only when they have at least 2 elements.  For
`G ≥ 1` the filtered range equals the members visited by the JS
`for (let j = i; j < K; j += G)` loop. -/
def parityLayer3 (K G : Nat) : List (List Nat) :=
  (List.range (min G K)).filterMap
    (fun i =>
      let g := (List.range K).filter (fun j => decide (i ≤ j ∧ (j - i) % G = 0))
      if 2 ≤ g.length then some g else none)

/-- `generateParityMap(K, G)`: concatenation of the three layers. -/
def generateParityMap (K G : Nat) : List (List Nat) :=
  parityLayer1 K G ++ parityLayer2 K G ++ parityLayer3 K G

/-- `generateParityBlocks(sourceBlocks, parityMap)`: each parity block is the
XOR of the named source blocks into a fresh zero block of `BLOCK_SIZE = 200`
bytes. -/
def generateParityBlocks (sourceBlocks : List (List Nat))
    (parityMap : List (List Nat)) : List (List Nat) :=
  parityMap.map (fun g =>
    g.foldl (fun acc idx => xorB acc (sourceBlocks.getD idx [])) (List.replicate 200 0))

/-- Parsed metadata record (`parseMetadataPayload` result). -/
structure Meta where
  filename : List Nat
  mimeType : List Nat
  fileSize : Nat
  hash : List Nat
  K : Nat
  mode : Nat
  deriving DecidableEq, Repr

/-- `createMetadataPayload(filename, mimeType, fileSize, hash, K, mode)`.
The byte image of the sequential writes into the zero-initialised buffer of
`1 + fb.len + 1 + mb.len + 4 + 32 + 4 + 1` bytes:
`[fbLen] ++ fb ++ [mbLen] ++ mb ++ be32(fileSize) ++ hash32 ++ be32(K) ++
[mode & 3]`.  `payload.set(hash, off)` writes `hash.length` bytes: a short
hash leaves trailing zeros (hence the zero padding), a hash of 33–37 bytes
spills into the `K`/`mode` region which the later fixed-offset writes
overwrite, and a longer hash throws a `RangeError` (the `.error` branch). -/
def createMetadataPayload (filename mimeType : List Nat) (fileSize : Nat)
    (hash : List Nat) (K : Nat) (mode : Nat) : Except Unit (List Nat) :=
  let fb := (filename.take 255).map (· % 256)
  let mb := (mimeType.take 255).map (· % 256)
  if hash.length > 37 then .error ()
  else .ok ([fb.length] ++ fb ++ [mb.length] ++ mb ++ be32bytes fileSize ++
    ((hash.map (· % 256)) ++ List.replicate 32 0).take 32 ++ be32bytes K ++ [mode % 4])

/-- `parseMetadataPayload(payload)`.  Out-of-range element reads yield
`undefined`; `offset += undefined` poisons `offset` to `NaN`, after which
`slice(NaN, NaN)` is empty, `ToIndex(NaN)` is `0` in the `DataView`
constructor (so `fileSize` and `K` are both read from bytes 0–3), and
`NaN < length` is false (so `mode` falls back to `0`).  The `DataView`
constructor throws a `RangeError` — modelled by `.error ()` — whenever the
requested 4-byte window exceeds the buffer. -/
def parseMetadataPayload (payload : List Nat) : Except Unit Meta :=
  let len := payload.length
  match payload.get? 0 with
  | none => .error ()
  | some fl =>
    let filename := (payload.drop 1).take fl
    match payload.get? (1 + fl) with
    | none =>
      if 4 ≤ len then
        let fs := readU32 payload
        .ok ⟨filename, [], fs, [], fs, 0⟩
      else .error ()
    | some ml =>
      let mime := (payload.drop (1 + fl + 1)).take ml
      let o2 := 1 + fl + 1 + ml
      if o2 + 4 ≤ len then
        let fs := readU32 (payload.drop o2)
        let hash := (payload.drop (o2 + 4)).take 32
        let o4 := o2 + 4 + 32
        if o4 + 4 ≤ len then
          let Kv := readU32 (payload.drop o4)
          let mode :=
            match payload.get? (o4 + 4) with
            | some m => m % 4
            | none => 0
          .ok ⟨filename, mime, fs, hash, Kv, mode⟩
        else .error ()
      else .error ()

/-- Parsed packet record (`parsePacket` result). -/
structure Packet where
  fileId : Nat
  k : Nat
  symbolId : Nat
  blockSize : Nat
  isMetadata : Bool
  mode : Nat
  spatialPos : Nat
  payload : List Nat
  deriving DecidableEq, Repr

/-- `createPacket(fileId, k, symbolId, payload, isMetadata, blockSize, mode,
spatialPos)`: 16-byte big-endian header followed by the payload bytes.  The
flags byte packs disjoint bit fields, so the JS `|` is `+`. -/
def createPacket (fileId k symbolId : Nat) (payload : List Nat)
    (isMetadata : Bool) (blockSize mode spatialPos : Nat) : List Nat :=
  let flags := (if isMetadata then 1 else 0) + 2 * (mode % 4) + 8 * (spatialPos % 4)
  [1] ++ be32bytes fileId ++ be32bytes k ++ be32bytes symbolId ++
    [blockSize / 256 % 256, blockSize % 256] ++ [flags] ++ (payload.map (· % 256))

/-- `parsePacket(data)`: `null` for a buffer shorter than 16 bytes or a
version byte other than `PROTOCOL_VERSION = 0x01`; otherwise the decoded
header fields and the payload `data.slice(16)`. -/
def parsePacket (data : List Nat) : Option Packet :=
  if data.length < 16 then none
  else if data.getD 0 0 ≠ 1 then none
  else some
    { fileId := readU32 (data.drop 1)
      k := readU32 (data.drop 5)
      symbolId := readU32 (data.drop 9)
      blockSize := (data.getD 13 0) * 256 + data.getD 14 0
      isMetadata := data.getD 15 0 % 2 = 1
      mode := data.getD 15 0 / 2 % 4
      spatialPos := data.getD 15 0 / 8 % 4
      payload := data.drop 16 }

/-- Encoder state built by `createEncoder`. -/
structure Encoder where
  fileId : Nat
  K : Nat
  K_prime : Nat
  M : Nat
  G : Nat
  originalSize : Nat
  intermediateBlocks : List (List Nat)
  metadataPayload : List Nat
  deriving DecidableEq, Repr

/-- The shared neighbour-index computation of `createEncoder.generateSymbol`
and `createDecoder.receive` (the two code blocks are textually identical):
seed the PRNG with `(fileId ^ symbolId) >>> 0`; ids `1 … kp` are systematic
with the single index `(id - 1) % kp`; larger ids draw a degree roll and emit
either one random index or `min(3, max(1, kp - 1))` distinct indices. -/
def symbolIndices (fileId kp sid : Nat) : List Nat :=
  let seed := Nat.xor fileId sid
  let rng := createPRNG seed
  if sid ≤ kp then [(sid - 1) % kp]
  else
    let (n1, rng1) := prngNext rng
    if jsLt015 n1 then
      let (n2, _) := prngNext rng1
      [n2 % kp]
    else pickUnique rng1 (min 3 (max 1 (kp - 1))) kp

/-- The XOR accumulation loop of `generateSymbol`: XOR the selected
intermediate blocks into a fresh `BLOCK_SIZE`-byte buffer.  An index beyond
the array raises `TypeError` (`undefined[i]`), modelled by `none`. -/
def xorBlocks (blocks : List (List Nat)) (indices : List Nat) : Option (List Nat) :=
  indices.foldl
    (fun acc idx => acc.bind (fun p =>
      match blocks.get? idx with
      | some b => some (xorB p b)
      | none => none))
    (some (List.replicate 200 0))

/-- `createEncoder(fileData, filename, mimeType, hash)` with the random
`fileId` taken as a parameter.  Pads the file to a multiple of
`BLOCK_SIZE = 200`, slices it into `K` source blocks, derives the parity
parameters and blocks, and prepares the metadata payload zero-padded to
`BLOCK_SIZE` (a raw metadata record longer than `BLOCK_SIZE` would make
`metadataPayload.set(rawMetadata)` throw, hence the `.error` branch). -/
def createEncoder (fileData : List Nat) (filename mimeType hash : List Nat)
    (fileId : Nat) : Except Unit Encoder :=
  let paddedSize := ((fileData.length + 199) / 200) * 200
  let padded := (fileData.map (· % 256)) ++ List.replicate (paddedSize - fileData.length) 0
  let K := paddedSize / 200
  let sourceBlocks := (List.range K).map (fun i => (padded.drop (i * 200)).take 200)
  let pp := calculateParityParams K
  let parityMap := generateParityMap K pp.G
  let parityBlocks := generateParityBlocks sourceBlocks parityMap
  match createMetadataPayload filename mimeType fileData.length hash K 0 with
  | .error _ => .error ()
  | .ok raw =>
    if raw.length > 200 then .error ()
    else .ok
      { fileId := fileId, K := K, K_prime := pp.K_prime, M := pp.M, G := pp.G
        originalSize := fileData.length
        intermediateBlocks := sourceBlocks ++ parityBlocks
        metadataPayload := raw ++ List.replicate (200 - raw.length) 0 }

/-- `generateSymbol(symbolId)`: id 0 returns the metadata packet; other ids
XOR the neighbour blocks of `symbolIndices` (computed against the encoder's
`K_prime = K + 3 * G`) into a payload packet.  `none` models the `TypeError`
thrown when a neighbour index reaches past the end of `intermediateBlocks`. -/
def generateSymbol (e : Encoder) (symbolId : Nat) : Option (List Nat) :=
  if symbolId = 0 then
    some (createPacket e.fileId e.K_prime 0 e.metadataPayload true 200 0 0)
  else
    match xorBlocks e.intermediateBlocks (symbolIndices e.fileId e.K_prime symbolId) with
    | none => none
    | some payload => some (createPacket e.fileId e.K_prime symbolId payload false 200 0 0)

/-- A decoded intermediate block. -/
abbrev Block := List Nat

/-- A pending XOR constraint of the decoder (`{ indices, payload }`). -/
structure Constraint where
  indices : List Nat
  payload : Block
  deriving DecidableEq, Repr

/-- JS array element read `l[i]` on the decoder's block store: out-of-range
reads and holes are `undefined`, i.e. `none`. -/
def jsGet (l : List (Option Block)) (i : Nat) : Option Block :=
  match l[i]? with
  | some x => x
  | none => none

/-- JS array element write `l[i] = v`: in range it replaces, past the end it
extends the array with holes (`undefined`, i.e. `none`) up to `i`. -/
def jsWrite (l : List (Option Block)) (i : Nat) (v : Block) : List (Option Block) :=
  if i < l.length then l.set i v
  else l ++ List.replicate (i - l.length) none ++ [some v]

/-- The block store and counters shared by `propagate` and `parityRecovery`. -/
structure Store where
  blocks : List (Option Block)
  solved : Nat
  solvedSource : Nat
  deriving DecidableEq, Repr

/-- The index walk of `reduce(symbol)`: XOR out known blocks in order,
collect the unknown indices in order. -/
def reduceGo (blocks : List (Option Block)) : List Nat → Block → List Nat × Block
  | [], p => ([], p)
  | idx :: rest, p =>
    match jsGet blocks idx with
    | some known => reduceGo blocks rest (xorB p known)
    | none =>
      let (r, p') := reduceGo blocks rest p
      (idx :: r, p')

/-- `reduce(symbol)`: the constraint with known blocks XOR-ed out of the
payload and only the unknown indices remaining. -/
def decReduce (blocks : List (Option Block)) (c : Constraint) : Constraint :=
  let (r, p) := reduceGo blocks c.indices c.payload
  ⟨r, p⟩

/-- Result of one scan of `propagate`'s inner `for` loop. -/
structure PropRes where
  pending : List Constraint
  store : Store
  changed : Bool

/-- One scan of `pendingSymbols` from the last index down to 0 (so the tail
of the list is processed first and earlier entries see its assignments):
a fully reduced constraint is spliced out, a degree-1 constraint assigns its
block (if still unknown) and is spliced out — both set `changed` — and any
other constraint is replaced in place by its reduced form. -/
def propagateOnce (K : Option Nat) : List Constraint → Store → PropRes
  | [], st => ⟨[], st, false⟩
  | c :: rest, st =>
    let r := propagateOnce K rest st
    let red := decReduce r.store.blocks c
    match red.indices with
    | [] => ⟨r.pending, r.store, true⟩
    | [idx] =>
      let st2 :=
        if jsGet r.store.blocks idx = none then
          { blocks := jsWrite r.store.blocks idx red.payload
            solved := r.store.solved + 1
            solvedSource := r.store.solvedSource +
              (match K with
               | some k => if idx < k then 1 else 0
               | none => 0) }
        else r.store
      ⟨r.pending, st2, true⟩
    | _ :: _ :: _ => ⟨⟨red.indices, red.payload⟩ :: r.pending, r.store, r.changed⟩

/-- A scan never lengthens `pendingSymbols`. -/
theorem propagateOnce_len_le (K : Option Nat) (l : List Constraint) (st : Store) :
    (propagateOnce K l st).pending.length ≤ l.length := by
  induction l generalizing st with
  | nil => simp [propagateOnce]
  | cons c rest ih =>
    simp only [propagateOnce]
    cases h : (decReduce (propagateOnce K rest st).store.blocks c).indices with
    | nil => exact Nat.le_succ_of_le (ih st)
    | cons a t =>
      cases t with
      | nil => exact Nat.le_succ_of_le (ih st)
      | cons b t2 => simpa using Nat.succ_le_succ (ih st)

/-- A scan that set `changed` spliced at least one constraint out. -/
theorem propagateOnce_len_lt (K : Option Nat) (l : List Constraint) (st : Store)
    (h : (propagateOnce K l st).changed = true) :
    (propagateOnce K l st).pending.length < l.length := by
  induction l generalizing st with
  | nil => simp [propagateOnce] at h
  | cons c rest ih =>
    simp only [propagateOnce] at h ⊢
    cases hred : (decReduce (propagateOnce K rest st).store.blocks c).indices with
    | nil =>
      simpa [hred] using Nat.lt_succ_of_le (propagateOnce_len_le K rest st)
    | cons a t =>
      cases t with
      | nil => simpa [hred] using Nat.lt_succ_of_le (propagateOnce_len_le K rest st)
      | cons b t2 =>
        simp only [hred] at h ⊢
        simpa using Nat.succ_lt_succ (ih st h)

/-- The `while (changed)` loop of `propagate`.  The loop reaches its fixpoint
because every `changed` pass splices at least one constraint out
(`propagateOnce_len_lt`), so the fuel `pending.length + 1` with which
`propagate` invokes it is never exhausted before the fixpoint; the recursion
is kept structural in the fuel so the kernel can evaluate it, and
`propagateLoop_fuel_irrel` shows the result does not depend on the fuel from
that point on. -/
def propagateLoop (K : Option Nat) : Nat → List Constraint → Store → List Constraint × Store
  | 0, pending, st => (pending, st)
  | fuel + 1, pending, st =>
    let r := propagateOnce K pending st
    if r.changed then propagateLoop K fuel r.pending r.store
    else (r.pending, r.store)

/-- Any fuel exceeding the pending-list length yields the same (fixpoint)
result: the fueled loop faithfully models the unbounded JS `while` loop. -/
theorem propagateLoop_fuel_irrel (K : Option Nat) :
    ∀ n f1 f2 (pending : List Constraint) (st : Store), pending.length ≤ n →
      pending.length < f1 → pending.length < f2 →
      propagateLoop K f1 pending st = propagateLoop K f2 pending st := by
  intro n
  induction n with
  | zero =>
    intro f1 f2 pending st hn h1 h2
    match f1, f2 with
    | g1 + 1, g2 + 1 =>
      simp only [propagateLoop]
      have hch : (propagateOnce K pending st).changed = false := by
        cases hc : (propagateOnce K pending st).changed with
        | false => rfl
        | true =>
          have := propagateOnce_len_lt K pending st hc
          omega
      rw [hch]
      simp
  | succ m ih =>
    intro f1 f2 pending st hn h1 h2
    match f1, f2 with
    | g1 + 1, g2 + 1 =>
      simp only [propagateLoop]
      cases hc : (propagateOnce K pending st).changed with
      | false => simp
      | true =>
        have hlt := propagateOnce_len_lt K pending st hc
        simp only [if_true]
        exact ih g1 g2 _ _ (by omega) (by omega) (by omega)

/-- `jsGet` is `Option.join` of the checked element read. -/
theorem jsGet_eq (l : List (Option Block)) (i : Nat) : jsGet l i = (l[i]?).join := by
  unfold jsGet
  cases l[i]? with
  | none => rfl
  | some x => cases x <;> rfl

/-- Reading back a JS array write: index `i` now holds `v`; every other index
is unchanged (holes introduced by an extending write read as `undefined`,
which is what an out-of-range read already gave). -/
theorem jsGet_jsWrite (l : List (Option Block)) (i : Nat) (v : Block) (j : Nat) :
    jsGet (jsWrite l i v) j = if j = i then some v else jsGet l j := by
  rw [jsGet_eq, jsWrite]
  by_cases hi : i < l.length
  · simp only [hi, if_true]
    rcases eq_or_ne j i with rfl | hne
    · simp [List.getElem?_set_eq_of_lt (some v) hi]
    · rw [List.getElem?_set_ne (Ne.symm hne), jsGet_eq]
      simp [hne]
  · simp only [hi, if_false]
    push_neg at hi
    have hlen2 : (l ++ List.replicate (i - l.length) none).length = i := by
      simp
      omega
    rcases eq_or_ne j i with rfl | hne
    · rw [List.getElem?_append_right hlen2.le]
      simp [hlen2]
    · simp only [hne, if_false]
      rw [jsGet_eq]
      by_cases hj : j < l.length
      · rw [List.getElem?_append_left (by rw [hlen2]; omega),
          List.getElem?_append_left hj]
      · push_neg at hj
        rw [List.getElem?_eq_none hj]
        by_cases hji : j < i
        · rw [List.getElem?_append_left (by rw [hlen2]; omega),
            List.getElem?_append_right hj, List.getElem?_replicate]
          have hlt : j - l.length < i - l.length := by omega
          simp [hlt]
        · rw [List.getElem?_eq_none (by simp only [List.length_append, hlen2]; simp; omega)]

/-- Length of a JS array after a write. -/
theorem jsWrite_length (l : List (Option Block)) (i : Nat) (v : Block) :
    (jsWrite l i v).length = max l.length (i + 1) := by
  unfold jsWrite
  split
  · simp
    omega
  · simp
    omega

/-- A propagation scan never un-assigns a decoded block: whatever `jsGet`
returned `some v` before still does after. -/
theorem propagateOnce_store_mono (K : Option Nat) (l : List Constraint) (st : Store)
    (i : Nat) (v : Block) (h : jsGet st.blocks i = some v) :
    jsGet (propagateOnce K l st).store.blocks i = some v := by
  induction l generalizing st with
  | nil => simpa [propagateOnce] using h
  | cons c rest ih =>
    have hr := ih st h
    simp only [propagateOnce]
    cases hred : (decReduce (propagateOnce K rest st).store.blocks c).indices with
    | nil => exact hr
    | cons a t =>
      cases t with
      | nil =>
        simp only
        split
        · next hnone =>
          rw [jsGet_jsWrite]
          have : i ≠ a := fun he => by rw [he, hnone] at hr; exact Option.noConfusion hr
          simp [this, hr]
        · exact hr
      | cons b t2 => exact hr

/-- The propagation loop never un-assigns a decoded block. -/
theorem propagateLoop_store_mono (K : Option Nat) (fuel : Nat)
    (pending : List Constraint) (st : Store)
    (i : Nat) (v : Block) (h : jsGet st.blocks i = some v) :
    jsGet (propagateLoop K fuel pending st).2.blocks i = some v := by
  induction fuel generalizing pending st with
  | zero => exact h
  | succ f ih =>
    simp only [propagateLoop]
    cases hc : (propagateOnce K pending st).changed with
    | false =>
      simp only [if_false, Bool.false_eq_true]
      exact propagateOnce_store_mono K pending st i v h
    | true =>
      simp only [if_true]
      exact ih _ _ (propagateOnce_store_mono K pending st i v h)

/-- One pass of `parityRecovery`'s `for` loop over the parity map (`p` is the
current row number, so the parity block itself sits at intermediate index
`K + p`).  A row whose parity block is known and which has exactly one
unknown source block solves it: XOR all other known blocks of the row out of
the parity block and assign; both counters increment (the parity map only
ever names source indices, all below `K`). -/
def parityOnce (Kv : Nat) : List (List Nat) → Nat → Store → Store × Bool
  | [], _, st => (st, false)
  | g :: rest, p, st =>
    match jsGet st.blocks (Kv + p) with
    | none => parityOnce Kv rest (p + 1) st
    | some parity =>
      match g.filter (fun i => (jsGet st.blocks i).isNone) with
      | [missing] =>
        let recovered := g.foldl
          (fun acc idx =>
            if idx ≠ missing then
              match jsGet st.blocks idx with
              | some known => xorB acc known
              | none => acc
            else acc) parity
        let r := parityOnce Kv rest (p + 1)
          ⟨jsWrite st.blocks missing recovered, st.solved + 1, st.solvedSource + 1⟩
        (r.1, true)
      | _ => parityOnce Kv rest (p + 1) st

/-- A parity pass never un-assigns a decoded block. -/
theorem parityOnce_store_mono (Kv : Nat) (groups : List (List Nat)) (p : Nat) (st : Store)
    (i : Nat) (v : Block) (h : jsGet st.blocks i = some v) :
    jsGet (parityOnce Kv groups p st).1.blocks i = some v := by
  induction groups generalizing p st with
  | nil => simpa [parityOnce] using h
  | cons g rest ih =>
    simp only [parityOnce]
    cases hpar : jsGet st.blocks (Kv + p) with
    | none => exact ih (p + 1) st h
    | some parity =>
      simp only
      cases hfil : g.filter (fun i => (jsGet st.blocks i).isNone) with
      | nil => exact ih (p + 1) st h
      | cons m t =>
        cases t with
        | nil =>
          simp only
          refine ih (p + 1) _ ?_
          rw [jsGet_jsWrite]
          have hm : (jsGet st.blocks m).isNone = true := by
            have : m ∈ g.filter (fun i => (jsGet st.blocks i).isNone) := by
              rw [hfil]; exact List.mem_singleton_self m
            exact (List.mem_filter.mp this).2
          have hne : i ≠ m := by
            intro he
            subst he
            rw [h] at hm
            simp at hm
          simp [hne, h]
        | cons b t2 => exact ih (p + 1) st h

/-- A parity pass that reports progress has assigned some previously unknown
index named by one of its groups. -/
theorem parityOnce_progress (Kv : Nat) (groups : List (List Nat)) (p : Nat) (st : Store)
    (h : (parityOnce Kv groups p st).2 = true) :
    ∃ i, i ∈ groups.flatten ∧ jsGet st.blocks i = none ∧
      jsGet (parityOnce Kv groups p st).1.blocks i ≠ none := by
  induction groups generalizing p st with
  | nil => simp [parityOnce] at h
  | cons g rest ih =>
    simp only [parityOnce] at h ⊢
    cases hpar : jsGet st.blocks (Kv + p) with
    | none =>
      rw [hpar] at h
      obtain ⟨i, hi, h1, h2⟩ := ih (p + 1) st h
      exact ⟨i, by rw [List.flatten_cons]; exact List.mem_append_right g hi, h1, h2⟩
    | some parity =>
      rw [hpar] at h
      cases hfil : g.filter (fun i => (jsGet st.blocks i).isNone) with
      | nil =>
        rw [hfil] at h
        obtain ⟨i, hi, h1, h2⟩ := ih (p + 1) st h
        exact ⟨i, by rw [List.flatten_cons]; exact List.mem_append_right g hi, h1, h2⟩
      | cons m t =>
        cases t with
        | nil =>
          have hm : m ∈ g.filter (fun i => (jsGet st.blocks i).isNone) := by
            rw [hfil]; exact List.mem_singleton_self m
          have hmg := List.mem_filter.mp hm
          have hw := parityOnce_store_mono Kv rest (p + 1)
            ⟨jsWrite st.blocks m (g.foldl
              (fun acc idx =>
                if idx ≠ m then
                  match jsGet st.blocks idx with
                  | some known => xorB acc known
                  | none => acc
                else acc) parity), st.solved + 1, st.solvedSource + 1⟩ m
            (g.foldl
              (fun acc idx =>
                if idx ≠ m then
                  match jsGet st.blocks idx with
                  | some known => xorB acc known
                  | none => acc
                else acc) parity)
            (by rw [jsGet_jsWrite]; simp)
          have hgoal : jsGet (parityOnce Kv rest (p + 1)
              ⟨jsWrite st.blocks m (g.foldl
                (fun acc idx =>
                  if idx ≠ m then
                    match jsGet st.blocks idx with
                    | some known => xorB acc known
                    | none => acc
                  else acc) parity), st.solved + 1, st.solvedSource + 1⟩).1.blocks m ≠ none := by
            rw [hw]
            simp
          exact ⟨m, by rw [List.flatten_cons]; exact List.mem_append_left _ hmg.1,
            by simpa using hmg.2, hgoal⟩
        | cons b t2 =>
          rw [hfil] at h
          obtain ⟨i, hi, h1, h2⟩ := ih (p + 1) st h
          exact ⟨i, by rw [List.flatten_cons]; exact List.mem_append_right g hi, h1, h2⟩

/-- Counting helper: a pointwise-smaller predicate that strictly loses a
member of the list satisfies strictly fewer elements. -/
theorem length_filter_lt_of_strict (L : List Nat) (p q : Nat → Bool)
    (hpq : ∀ x, p x = true → q x = true) (x0 : Nat) (hx0 : x0 ∈ L)
    (hp0 : p x0 = false) (hq0 : q x0 = true) :
    (L.filter p).length < (L.filter q).length := by
  induction L with
  | nil => cases hx0
  | cons a t ih =>
    have hle : (t.filter p).length ≤ (t.filter q).length :=
      List.Sublist.length_le (List.monotone_filter_right t (fun x hx => hpq x hx))
    rcases List.mem_cons.mp hx0 with rfl | hmem
    · simp only [List.filter_cons, hp0, hq0]
      simpa using Nat.lt_succ_of_le hle
    · have hlt := ih hmem
      simp only [List.filter_cons]
      cases hpa : p a with
      | false =>
        cases hqa : q a with
        | false => simpa using hlt
        | true => simpa using Nat.lt_succ_of_lt hlt
      | true =>
        have := hpq a hpa
        rw [this]
        simpa using Nat.succ_lt_succ hlt

/-- Termination measure of the `parityRecovery` outer `while` loop: how many
indices named by the parity map are still unknown. -/
def parityUnknown (pm : List (List Nat)) (blocks : List (Option Block)) : Nat :=
  ((pm.flatten).dedup.filter (fun i => (jsGet blocks i).isNone)).length

/-- The measure never grows along a block-monotone step. -/
theorem parityUnknown_le (pm : List (List Nat)) (b b' : List (Option Block))
    (hmono : ∀ i v, jsGet b i = some v → jsGet b' i = some v) :
    parityUnknown pm b' ≤ parityUnknown pm b := by
  unfold parityUnknown
  refine List.Sublist.length_le (List.monotone_filter_right _ (fun x hx => ?_))
  cases hb : jsGet b x with
  | none => simp [hb]
  | some v => rw [hmono x v hb] at hx; simp at hx

/-- The measure strictly drops when a pass makes progress. -/
theorem parityUnknown_lt (pm : List (List Nat)) (b b' : List (Option Block))
    (hmono : ∀ i v, jsGet b i = some v → jsGet b' i = some v)
    (x0 : Nat) (hx0 : x0 ∈ pm.flatten) (h1 : jsGet b x0 = none)
    (h2 : jsGet b' x0 ≠ none) :
    parityUnknown pm b' < parityUnknown pm b := by
  unfold parityUnknown
  have hpw : ∀ x, (jsGet b' x).isNone = true → (jsGet b x).isNone = true := by
    intro x hx
    cases hb : jsGet b x with
    | none => simp
    | some v => rw [hmono x v hb] at hx; simp at hx
  have hp0 : (jsGet b' x0).isNone = false := by
    cases hb2 : jsGet b' x0 with
    | none => exact absurd hb2 h2
    | some v => simp
  exact length_filter_lt_of_strict _ _ _ hpw x0 (List.mem_dedup.mpr hx0) hp0 (by simp [h1])

/-- The `while (progress)` loop of `parityRecovery`: run a parity pass; on
progress re-run LT propagation over the pending constraints (with its own
fixpoint fuel, as `propagate()` does) and loop.  Each progressing pass
strictly decreases the number of unknown parity-map indices
(`parityOnce_progress`, `parityUnknown_lt`), so the fuel
`parityUnknown pm st.blocks + 1` with which `parityRecovery` invokes it is
never exhausted before the JS loop's fixpoint (`parityRecoveryLoop_fuel_irrel`). -/
def parityRecoveryLoop (Kv : Nat) (pm : List (List Nat)) :
    Nat → List Constraint → Store → List Constraint × Store
  | 0, pending, st => (pending, st)
  | fuel + 1, pending, st =>
    if (parityOnce Kv pm 0 st).2 then
      parityRecoveryLoop Kv pm fuel
        (propagateLoop (some Kv) (pending.length + 1) pending (parityOnce Kv pm 0 st).1).1
        (propagateLoop (some Kv) (pending.length + 1) pending (parityOnce Kv pm 0 st).1).2
    else (pending, (parityOnce Kv pm 0 st).1)

/-- One progressing round of the parity loop strictly shrinks the measure. -/
theorem parityRound_measure_lt (Kv : Nat) (pm : List (List Nat))
    (pending : List Constraint) (st : Store)
    (h : (parityOnce Kv pm 0 st).2 = true) :
    parityUnknown pm
        (propagateLoop (some Kv) (pending.length + 1) pending
          (parityOnce Kv pm 0 st).1).2.blocks <
      parityUnknown pm st.blocks := by
  obtain ⟨i, hi, h1, h2⟩ := parityOnce_progress Kv pm 0 st h
  refine Nat.lt_of_le_of_lt ?_ (parityUnknown_lt pm st.blocks (parityOnce Kv pm 0 st).1.blocks
    (fun j v hv => parityOnce_store_mono Kv pm 0 st j v hv) i hi h1 h2)
  exact parityUnknown_le pm _ _
    (fun j v hv =>
      propagateLoop_store_mono (some Kv) (pending.length + 1) pending
        (parityOnce Kv pm 0 st).1 j v hv)

/-- Any fuel exceeding the unknown-index measure yields the same (fixpoint)
result: the fueled loop faithfully models the unbounded JS `while` loop. -/
theorem parityRecoveryLoop_fuel_irrel (Kv : Nat) (pm : List (List Nat)) :
    ∀ n f1 f2 (pending : List Constraint) (st : Store),
      parityUnknown pm st.blocks ≤ n →
      parityUnknown pm st.blocks < f1 → parityUnknown pm st.blocks < f2 →
      parityRecoveryLoop Kv pm f1 pending st = parityRecoveryLoop Kv pm f2 pending st := by
  intro n
  induction n with
  | zero =>
    intro f1 f2 pending st hn h1 h2
    match f1, f2 with
    | g1 + 1, g2 + 1 =>
      simp only [parityRecoveryLoop]
      cases hc : (parityOnce Kv pm 0 st).2 with
      | false => simp
      | true =>
        have := parityRound_measure_lt Kv pm pending st hc
        omega
  | succ m ih =>
    intro f1 f2 pending st hn h1 h2
    match f1, f2 with
    | g1 + 1, g2 + 1 =>
      simp only [parityRecoveryLoop]
      cases hc : (parityOnce Kv pm 0 st).2 with
      | false => simp
      | true =>
        have hlt := parityRound_measure_lt Kv pm pending st hc
        simp only [if_true]
        exact ih g1 g2 _ _ (by omega) (by omega) (by omega)

/-- The value `receive` hands back to the caller: `true`, `false`, or the
string `'new_session'`. -/
inductive JSRet where
  | rTrue
  | rFalse
  | rNewSession
  deriving DecidableEq, Repr

/-- How a `receive` call ended: with a returned value, or with an uncaught
exception (the decoder object keeps every mutation made before the throw). -/
inductive Outcome where
  | ret (r : JSRet)
  | threw
  deriving DecidableEq, Repr

/-- The mutable closure state of `createDecoder()`. -/
structure DecState where
  fileId : Option Nat
  K : Option Nat
  K_prime : Option Nat
  G : Option Nat
  parityMap : Option (List (List Nat))
  metadata : Option Meta
  blockSize : Nat
  blocks : List (Option Block)
  solved : Nat
  solvedSource : Nat
  seen : Finset Nat
  pending : List Constraint
  deriving DecidableEq

/-- The fresh decoder: everything null/empty, `blockSize = 200`.  The JS
`decodedBlocks = null` is modelled by the empty list (it is only read after
the first packet allocates it). -/
def initDecoder : DecState :=
  ⟨none, none, none, none, none, none, 200, [], 0, 0, ∅, []⟩

/-- `isComplete()`: `K !== null && solvedSource === K`. -/
def DecState.isComplete (st : DecState) : Bool :=
  match st.K with
  | some k => st.solvedSource = k
  | none => false

/-- `propagate()` on the decoder state (fuel `pending.length + 1` reaches the
JS fixpoint, see `propagateLoop_fuel_irrel`). -/
def propagate (st : DecState) : DecState :=
  let r := propagateLoop st.K (st.pending.length + 1) st.pending
    ⟨st.blocks, st.solved, st.solvedSource⟩
  { st with
    pending := r.1
    blocks := r.2.blocks
    solved := r.2.solved
    solvedSource := r.2.solvedSource }

/-- `parityRecovery()` on the decoder state: a no-op unless both `parityMap`
and `K` are truthy (note `K = 0` is falsy in JS). -/
def parityRecovery (st : DecState) : DecState :=
  match st.parityMap, st.K with
  | some pm, some k =>
    if k = 0 then st
    else
      let r := parityRecoveryLoop k pm (parityUnknown pm st.blocks + 1) st.pending
        ⟨st.blocks, st.solved, st.solvedSource⟩
      { st with
        pending := r.1
        blocks := r.2.blocks
        solved := r.2.solved
        solvedSource := r.2.solvedSource }
  | _, _ => st

/-- The metadata branch of `receive` once the payload has parsed: bind `K`,
`G` and the parity map, recompute the canonical `K′ = K + parityMap.length`,
reallocate the block array if the bound `K′` differs (preserving decoded
entries at surviving indices), and recount both counters over the first `K′`
slots. -/
def acceptMetadata (st : DecState) (m : Meta) : DecState :=
  let Kv := m.K
  let Gv := ceilSqrt Kv
  let pm := generateParityMap Kv Gv
  let nk := Kv + pm.length
  let blocks2 :=
    if st.K_prime ≠ some nk then (List.range nk).map (fun i => jsGet st.blocks i)
    else st.blocks
  let solved2 := ((List.range nk).filter (fun i => (jsGet blocks2 i).isSome)).length
  let solvedSource2 :=
    ((List.range nk).filter (fun i => (jsGet blocks2 i).isSome && decide (i < Kv))).length
  { st with
    K := some Kv
    G := some Gv
    parityMap := some pm
    metadata := some m
    K_prime := some nk
    blocks := blocks2
    solved := solved2
    solvedSource := solvedSource2 }

/-- `receive(packet)`.  Returns the JS return value (or `threw`) together
with the decoder state after the call — mutations made before an uncaught
exception are kept, exactly as on the JS closure. -/
def receive (st : DecState) (data : List Nat) : Outcome × DecState :=
  match parsePacket data with
  | none => (.ret .rFalse, st)
  | some p =>
    let bind :=
      match st.fileId with
      | none => some { st with
          fileId := some p.fileId
          K_prime := some p.k
          blockSize := p.blockSize
          blocks := List.replicate p.k none }
      | some f => if p.fileId ≠ f then none else some st
    match bind with
    | none => (.ret .rNewSession, st)
    | some st1 =>
      if p.symbolId ∈ st1.seen then (.ret .rFalse, st1)
      else
        let st2 := { st1 with seen := insert p.symbolId st1.seen }
        if p.isMetadata = true ∨ p.symbolId = 0 then
          match st2.metadata with
          | some _ => (.ret .rTrue, st2)
          | none =>
            match parseMetadataPayload p.payload with
            | .error _ => (.threw, st2)
            | .ok m => (.ret .rTrue, acceptMetadata st2 m)
        else
          let kp := st2.K_prime.getD 0
          let fid := st2.fileId.getD 0
          let c : Constraint := ⟨symbolIndices fid kp p.symbolId, p.payload⟩
          let st3 := propagate { st2 with pending := st2.pending ++ [c] }
          let st4 :=
            if st3.isComplete = false ∧ st3.parityMap.isSome then parityRecovery st3
            else st3
          (.ret .rTrue, st4)

/-- Feed a list of packets to a fresh decoder, one `receive` per packet (the
host keeps calling `receive` even after a frame whose processing threw). -/
def runDecoder (packets : List (List Nat)) : DecState :=
  packets.foldl (fun st d => (receive st d).2) initDecoder

/-! ### Concrete fixtures used by counterexamples and witnesses -/

/-- A 450-byte staged file: `K = ⌈450/200⌉ = 3` source blocks (the size used
by the repository's own round-trip test). -/
def fileK3 : List Nat := List.replicate 450 7

/-- A zero digest of the correct 32-byte length. -/
def hash32 : List Nat := List.replicate 32 0

/-- The encoder staged with the 450-byte file (`fileId = 1`). -/
def encK3 : Except Unit Encoder := createEncoder fileK3 [] [] hash32 1

/-- A 1-byte staged file: `K = 1`. -/
def encK1 : Except Unit Encoder := createEncoder [42] [] [] hash32 5

/-! ### C1 -/

set_option maxRecDepth 100000 in
/-- C1: the claim that encoder and decoder agree on `K′` after metadata fails
on the code.  For `K = 3` the encoder computes and advertises
`K′ = K + 3·⌈√K⌉ = 9` (`calculateParityParams`), while the decoder receiving
that very metadata packet recomputes the canonical
`K′ = K + parityMap.length = 7`; the two ends disagree. -/
theorem c1_kprime_disagreement :
    (encK3.toOption.map fun e => (e.K, e.K_prime)) = some (3, 9) ∧
    3 + (generateParityMap 3 (calculateParityParams 3).G).length = 7 ∧
    (encK3.toOption.map fun e =>
      (runDecoder [(generateSymbol e 0).getD []]).K_prime) = some (some 7) ∧
    (9 : Nat) ≠ 7 := by
  refine ⟨by decide, by decide, by decide, by decide⟩

/-! ### C2 -/

set_option maxRecDepth 100000 in
/-- C2: the claim that `generateSymbol` cannot fail and that every neighbour
index stays below `K + parityMap.length` fails on the code.  With the staged
450-byte file (`K = 3`, 7 intermediate blocks) the systematic symbol id 8 —
which the sender's driver loop reaches, since it counts up to the encoder's
`K_prime = 9` — produces neighbour index `7`, one past the end of
`intermediateBlocks`, and the XOR loop throws (`none`). -/
theorem c2_generate_symbol_throws :
    (encK3.toOption.map fun e => (e.intermediateBlocks.length,
      symbolIndices e.fileId e.K_prime 8, generateSymbol e 8)) = some (7, [7], none) := by
  decide

/-! ### C9 -/

/-- C9: `parsePacket` fails exactly on buffers shorter than 16 bytes or with
a version byte other than `0x01`; every other buffer parses, the payload is
the bytes after offset 16, and no relation between payload length and the
`blockSize` header field is required (the success condition mentions
neither). -/
theorem c9_parse_packet_conditions (data : List Nat) :
    (parsePacket data = none ↔ (data.length < 16 ∨ data.getD 0 0 ≠ 1)) ∧
    (∀ p, parsePacket data = some p →
      p.payload = data.drop 16 ∧ p.blockSize = data.getD 13 0 * 256 + data.getD 14 0) := by
  constructor
  · unfold parsePacket
    by_cases h1 : data.length < 16
    · simp [h1]
    · by_cases h2 : data.getD 0 0 ≠ 1 <;> simp [h1, h2]
  · intro p hp
    unfold parsePacket at hp
    by_cases h1 : data.length < 16
    · simp [h1] at hp
    · by_cases h2 : data.getD 0 0 ≠ 1
      · rw [if_neg h1, if_pos h2] at hp
        cases hp
      · rw [if_neg h1, if_neg h2] at hp
        injection hp with hp
        rw [← hp]
        exact ⟨rfl, rfl⟩

/-- Witness: the truncated buffer `[2]` fails to parse, and the all-ones
16-byte buffer parses with empty payload and blockSize `0x0101`. -/
theorem c9_parse_packet_conditions_witness :
    parsePacket [2] = none ∧
    (match parsePacket (List.replicate 16 1) with
     | some p => p.payload = [] ∧ p.blockSize = 257
     | none => False) := by
  constructor
  · exact (c9_parse_packet_conditions [2]).1.mpr (Or.inl (by decide))
  · cases hp : parsePacket (List.replicate 16 1) with
    | some p =>
      have h := (c9_parse_packet_conditions (List.replicate 16 1)).2 p hp
      refine ⟨by rw [h.1]; decide, by rw [h.2]; decide⟩
    | none =>
      have h := (c9_parse_packet_conditions (List.replicate 16 1)).1.mp hp
      revert h
      decide

/-! ### C6 -/

/-- Membership of the JS loop range `[a, b)`. -/
theorem jsRange_mem (a b j : Nat) : j ∈ jsRange a b ↔ a ≤ j ∧ j < b := by
  unfold jsRange
  constructor
  · intro h
    obtain ⟨t, ht, hEq⟩ := List.mem_iff_getElem.mp h
    rw [List.getElem_drop] at hEq
    rw [List.getElem_range] at hEq
    have hlen : t < b - a := by simpa using ht
    omega
  · intro hh
    refine List.mem_iff_getElem.mpr ⟨j - a, ?_, ?_⟩
    · simpa using (by omega : j - a < b - a)
    · rw [List.getElem_drop, List.getElem_range]
      omega

/-- `ceilSqrt K` squares to at least `K`. -/
theorem ceilSqrt_spec (K : Nat) : K ≤ ceilSqrt K * ceilSqrt K := by
  unfold ceilSqrt
  cases hl : (List.range (K + 2)).filter (fun g => decide (K ≤ g * g)) with
  | nil =>
    exfalso
    have hmem : K + 1 ∈ (List.range (K + 2)).filter (fun g => decide (K ≤ g * g)) := by
      refine List.mem_filter.mpr ⟨List.mem_range.mpr (by omega), by simp; nlinarith⟩
    rw [hl] at hmem
    cases hmem
  | cons a t =>
    have hmem : a ∈ (List.range (K + 2)).filter (fun g => decide (K ≤ g * g)) := by
      rw [hl]; exact List.mem_cons_self a t
    have := (List.mem_filter.mp hmem).2
    simpa using this

/-- `ceilSqrt K` is positive for positive `K`. -/
theorem ceilSqrt_pos (K : Nat) (hK : 1 ≤ K) : 1 ≤ ceilSqrt K := by
  by_contra h
  push_neg at h
  interval_cases hc : ceilSqrt K
  have := ceilSqrt_spec K
  rw [hc] at this
  omega

/-- C6: parity-map coverage.  Every source index `j < K` lies in some group
of `generateParityMap K (ceilSqrt K)` — already its layer-1 (consecutive)
group `⌊j/G⌋`, which is pushed unconditionally. -/
theorem c6_parity_coverage (K : Nat) (hK : 1 ≤ K) (j : Nat) (hj : j < K) :
    ∃ g ∈ generateParityMap K (ceilSqrt K), j ∈ g := by
  set G := ceilSqrt K with hG
  have hG1 : 1 ≤ G := ceilSqrt_pos K hK
  refine ⟨jsRange (j / G * G) (min ((j / G + 1) * G) K), ?_, ?_⟩
  · unfold generateParityMap
    refine List.mem_append_left _ (List.mem_append_left _ ?_)
    unfold parityLayer1
    refine List.mem_map.mpr ⟨j / G, List.mem_filter.mpr ⟨?_, ?_⟩, rfl⟩
    · refine List.mem_range.mpr ?_
      have := Nat.div_le_self j G
      omega
    · have := Nat.div_mul_le_self j G
      simp
      omega
  · rw [jsRange_mem]
    have h1 := Nat.div_mul_le_self j G
    have h2 := Nat.div_add_mod j G
    have h3 : j % G < G := Nat.mod_lt j (by omega)
    have h4 : (j / G + 1) * G = j / G * G + G := by ring
    have h5 : G * (j / G) = j / G * G := by ring
    omega

/-- Witness for C6 at `K = 5`, `j = 3`. -/
theorem c6_parity_coverage_witness :
    ∃ g ∈ generateParityMap 5 (ceilSqrt 5), 3 ∈ g :=
  c6_parity_coverage 5 (by decide) 3 (by decide)

/-! ### C7 -/

/-- Storing bytes into a `Uint8Array` is the identity on actual bytes. -/
theorem mapMod256_eq (l : List Nat) (hl : ∀ b ∈ l, b < 256) : l.map (· % 256) = l := by
  induction l with
  | nil => rfl
  | cons a t ih =>
    have ha := hl a (List.mem_cons_self a t)
    simp only [List.map_cons, Nat.mod_eq_of_lt ha]
    rw [ih (fun b hb => hl b (List.mem_cons_of_mem a hb))]

/-- Reading back a big-endian 32-bit field. -/
theorem readU32_be32 (x : Nat) (rest : List Nat) (hx : x < 2 ^ 32) :
    readU32 (be32bytes x ++ rest) = x := by
  unfold readU32 be32bytes
  simp [List.getD]
  omega

/-- Dropping past a head byte and a following chunk. -/
theorem drop_cons_append (a : Nat) (xs ys : List Nat) (k : Nat) :
    (a :: (xs ++ ys)).drop (1 + xs.length + k) = ys.drop k := by
  rw [show 1 + xs.length + k = (xs.length + k) + 1 by omega, List.drop_succ_cons,
    List.drop_append k]

/-- An element read is the head of the corresponding suffix. -/
theorem get?_eq_head_drop (l : List Nat) (n : Nat) : l.get? n = (l.drop n).get? 0 := by
  cases hl : l.drop n with
  | nil =>
    have : l.length ≤ n := by
      by_contra hc
      push_neg at hc
      have := List.drop_eq_nil_iff.mp hl
      omega
    simp [List.get?_eq_getElem?, List.getElem?_eq_none this]
  | cons a t =>
    rw [List.get?_eq_getElem?]
    have h2 : l[n]? = (l.drop n)[0]? := by rw [List.getElem?_drop]; norm_num
    rw [h2, hl]
    simp [List.get?_eq_getElem?]

/-- C7 (amended): the metadata round-trip holds for byte-valued fields with
in-range lengths and a mode of at most 3 (the counterexample
`c7_mode_counterexample` shows a general mode byte is masked to its low two
bits and not preserved). -/
theorem c7_metadata_roundtrip (fn mi : List Nat) (fs : Nat) (h : List Nat) (K mode : Nat)
    (hfn1 : fn.length ≤ 255) (hfn2 : ∀ b ∈ fn, b < 256)
    (hmi1 : mi.length ≤ 255) (hmi2 : ∀ b ∈ mi, b < 256)
    (hfs : fs < 2 ^ 32) (hh1 : h.length = 32) (hh2 : ∀ b ∈ h, b < 256)
    (hK : K < 2 ^ 32) (hmode : mode ≤ 3) :
    (createMetadataPayload fn mi fs h K mode).bind parseMetadataPayload =
      .ok ⟨fn, mi, fs, h, K, mode⟩ := by
  have htake : ((h.map (· % 256)) ++ List.replicate 32 0).take 32 = h := by
    rw [mapMod256_eq h hh2]
    conv_lhs => rw [← hh1]
    exact List.take_left h _
  have hcreate : createMetadataPayload fn mi fs h K mode =
      .ok (fn.length :: (fn ++ (mi.length ::
        (mi ++ (be32bytes fs ++ (h ++ (be32bytes K ++ [mode]))))))) := by
    unfold createMetadataPayload
    rw [if_neg (by omega)]
    rw [List.take_of_length_le hfn1, List.take_of_length_le hmi1,
      mapMod256_eq fn hfn2, mapMod256_eq mi hmi2, htake,
      Nat.mod_eq_of_lt (show mode < 4 by omega)]
    simp [List.append_assoc]
  rw [hcreate]
  show parseMetadataPayload (fn.length :: (fn ++ (mi.length ::
      (mi ++ (be32bytes fs ++ (h ++ (be32bytes K ++ [mode]))))))) =
    Except.ok ⟨fn, mi, fs, h, K, mode⟩
  have h1 : (fn.length :: (fn ++ (mi.length ::
      (mi ++ (be32bytes fs ++ (h ++ (be32bytes K ++ [mode]))))))).get? 0
      = some fn.length := rfl
  have h2 : ((fn.length :: (fn ++ (mi.length ::
      (mi ++ (be32bytes fs ++ (h ++ (be32bytes K ++ [mode]))))))).drop 1).take fn.length
      = fn := by
    rw [List.drop_succ_cons, List.drop_zero, List.take_left]
  have hd : ∀ k, (fn.length :: (fn ++ (mi.length ::
      (mi ++ (be32bytes fs ++ (h ++ (be32bytes K ++ [mode]))))))).drop (1 + fn.length + k)
      = (mi.length :: (mi ++ (be32bytes fs ++ (h ++ (be32bytes K ++ [mode]))))).drop k :=
    fun k => drop_cons_append _ _ _ k
  have h3 : (fn.length :: (fn ++ (mi.length ::
      (mi ++ (be32bytes fs ++ (h ++ (be32bytes K ++ [mode]))))))).get? (1 + fn.length)
      = some mi.length := by
    rw [get?_eq_head_drop, show 1 + fn.length = 1 + fn.length + 0 from by omega, hd 0]
    rfl
  have h4 : ((fn.length :: (fn ++ (mi.length ::
      (mi ++ (be32bytes fs ++ (h ++ (be32bytes K ++ [mode]))))))).drop
        (1 + fn.length + 1)).take mi.length = mi := by
    rw [hd 1, List.drop_succ_cons, List.drop_zero, List.take_left]
  have hZ : ∀ k, (fn.length :: (fn ++ (mi.length ::
      (mi ++ (be32bytes fs ++ (h ++ (be32bytes K ++ [mode]))))))).drop
        (1 + fn.length + 1 + mi.length + k)
      = (be32bytes fs ++ (h ++ (be32bytes K ++ [mode]))).drop k := by
    intro k
    rw [show 1 + fn.length + 1 + mi.length + k = 1 + fn.length + (1 + mi.length + k) from by
      omega, hd (1 + mi.length + k), drop_cons_append]
  have h5 : readU32 ((fn.length :: (fn ++ (mi.length ::
      (mi ++ (be32bytes fs ++ (h ++ (be32bytes K ++ [mode]))))))).drop
        (1 + fn.length + 1 + mi.length)) = fs := by
    rw [show 1 + fn.length + 1 + mi.length = 1 + fn.length + 1 + mi.length + 0 from by omega,
      hZ 0, List.drop_zero, readU32_be32 fs _ hfs]
  have hlen4 : (be32bytes fs).length = 4 := rfl
  have h6 : ((fn.length :: (fn ++ (mi.length ::
      (mi ++ (be32bytes fs ++ (h ++ (be32bytes K ++ [mode]))))))).drop
        (1 + fn.length + 1 + mi.length + 4)).take 32 = h := by
    rw [hZ 4, show (4 : Nat) = (be32bytes fs).length from rfl, List.drop_left, ← hh1,
      List.take_left]
  have h7 : readU32 ((fn.length :: (fn ++ (mi.length ::
      (mi ++ (be32bytes fs ++ (h ++ (be32bytes K ++ [mode]))))))).drop
        (1 + fn.length + 1 + mi.length + 4 + 32)) = K := by
    rw [show 1 + fn.length + 1 + mi.length + 4 + 32
        = 1 + fn.length + 1 + mi.length + (4 + 32) from by omega, hZ (4 + 32),
      show (4 + 32 : Nat) = (be32bytes fs).length + 32 from rfl, List.drop_append 32,
      ← hh1, List.drop_left, readU32_be32 K _ hK]
  have h8 : (fn.length :: (fn ++ (mi.length ::
      (mi ++ (be32bytes fs ++ (h ++ (be32bytes K ++ [mode]))))))).get?
        (1 + fn.length + 1 + mi.length + 4 + 32 + 4) = some mode := by
    rw [get?_eq_head_drop,
      show 1 + fn.length + 1 + mi.length + 4 + 32 + 4
        = 1 + fn.length + 1 + mi.length + (4 + (32 + 4)) from by omega, hZ (4 + (32 + 4)),
      show (4 + (32 + 4) : Nat) = (be32bytes fs).length + (32 + 4) from rfl,
      List.drop_append (32 + 4), show (32 + 4 : Nat) = h.length + 4 from by omega,
      List.drop_append 4, show (4 : Nat) = (be32bytes K).length + 0 from rfl,
      List.drop_append 0]
    rfl
  have hlen : (fn.length :: (fn ++ (mi.length ::
      (mi ++ (be32bytes fs ++ (h ++ (be32bytes K ++ [mode]))))))).length
      = 43 + fn.length + mi.length := by
    simp [be32bytes, hh1]
    omega
  unfold parseMetadataPayload
  rw [h1]
  simp only
  rw [h3]
  simp only
  rw [hlen, if_pos (by omega), h5, if_pos (by omega), h7, h8, h2, h4, h6]
  simp [Nat.mod_eq_of_lt (show mode < 4 by omega)]

/-- C7 counterexample: the claim quantifies over an arbitrary mode byte, but
`createMetadataPayload` stores `mode & 0x03`, so mode `4` comes back as `0`:
the round-trip does not return the identical tuple. -/
theorem c7_mode_counterexample :
    ((createMetadataPayload [] [] 0 hash32 1 4).toOption.bind
      (fun pl => (parseMetadataPayload pl).toOption)).map Meta.mode = some 0 ∧
    (0 : Nat) ≠ 4 := by
  constructor
  · decide
  · decide

/-- Witness for C7 on a concrete tuple. -/
theorem c7_metadata_roundtrip_witness :
    (createMetadataPayload [65] [66, 67] 5 hash32 7 2).bind parseMetadataPayload =
      .ok ⟨[65], [66, 67], 5, hash32, 7, 2⟩ :=
  c7_metadata_roundtrip [65] [66, 67] 5 hash32 7 2
    (by decide) (by decide) (by decide) (by decide) (by decide)
    (by decide) (by decide) (by decide) (by decide)

/-! ### C4 -/

/-- A metadata payload whose declared MIME length (18) makes the 4-byte
`fileSize` read start exactly at the end of the 20-byte buffer. -/
def badMetaPayload : List Nat := [0, 18] ++ List.replicate 18 7

/-- A metadata packet (session 9, header `k = 9`) carrying the overflowing
payload. -/
def badMetaPkt : List Nat :=
  [1] ++ be32bytes 9 ++ be32bytes 9 ++ be32bytes 0 ++ [0, 200] ++ [1] ++ badMetaPayload

/-- A well-formed metadata packet of the same session, as a retransmission. -/
def goodMetaPkt : List Nat :=
  [1] ++ be32bytes 9 ++ be32bytes 9 ++ be32bytes 0 ++ [0, 200] ++ [1] ++
    (createMetadataPayload [] [] 1 hash32 1 0).toOption.getD []

/-- C4 counterexample: the decoder does not reject the overflowing metadata
packet silently.  `parseMetadataPayload` throws out of `receive` (no
`Accepted` return), the symbol id 0 is already recorded as seen, and the
retransmitted well-formed metadata packet is dismissed as a duplicate with
metadata still unset — the session can never acquire metadata. -/
theorem c4_overflow_counterexample :
    (receive initDecoder badMetaPkt).1 = .threw ∧
    0 ∈ (receive initDecoder badMetaPkt).2.seen ∧
    (receive (receive initDecoder badMetaPkt).2 goodMetaPkt).1 = .ret .rFalse ∧
    (receive (receive initDecoder badMetaPkt).2 goodMetaPkt).2.metadata = none := by
  refine ⟨by decide, by decide, by decide, by decide⟩

/-- C4 (amended): when the declared string lengths leave fewer than 4 bytes
for the `fileSize` field, `parseMetadataPayload` raises a `RangeError`
(`.error`), which escapes `receive` — the packet is not rejected silently
(and since its symbol id was recorded before the throw, a retransmitted
metadata packet is dropped as a duplicate, see `c4_overflow_counterexample`). -/
theorem c4_overflow_throws (payload : List Nat) (fl ml : Nat)
    (h0 : payload.get? 0 = some fl) (h1 : payload.get? (1 + fl) = some ml)
    (h2 : payload.length < fl + ml + 6) :
    parseMetadataPayload payload = .error () := by
  unfold parseMetadataPayload
  rw [h0]
  simp only
  rw [h1]
  simp only
  rw [if_neg (by omega)]

/-- Witness for C4 at the concrete overflowing payload. -/
theorem c4_overflow_throws_witness :
    parseMetadataPayload badMetaPayload = .error () :=
  c4_overflow_throws badMetaPayload 0 18 (by decide) (by decide) (by decide)

/-! ### C8 -/

/-- The parity-recovery loop never un-assigns a decoded block. -/
theorem parityRecoveryLoop_store_mono (Kv : Nat) (pm : List (List Nat)) (fuel : Nat)
    (pending : List Constraint) (st : Store) (i : Nat) (v : Block)
    (h : jsGet st.blocks i = some v) :
    jsGet (parityRecoveryLoop Kv pm fuel pending st).2.blocks i = some v := by
  induction fuel generalizing pending st with
  | zero => exact h
  | succ f ih =>
    simp only [parityRecoveryLoop]
    cases hc : (parityOnce Kv pm 0 st).2 with
    | false =>
      simp only [if_false, Bool.false_eq_true]
      exact parityOnce_store_mono Kv pm 0 st i v h
    | true =>
      simp only [if_true]
      exact ih _ _ (propagateLoop_store_mono (some Kv) (pending.length + 1) pending _ i v
        (parityOnce_store_mono Kv pm 0 st i v h))

/-- Reading the freshly copied block array of the metadata reallocation. -/
theorem jsGet_map_range (f : Nat → Option Block) (nk i : Nat) :
    jsGet ((List.range nk).map f) i = if i < nk then f i else none := by
  rw [jsGet_eq]
  by_cases hi : i < nk
  · rw [List.getElem?_map, List.getElem?_range hi]
    simp [hi]
  · rw [List.getElem?_eq_none (by simpa using Nat.le_of_not_lt hi)]
    simp [hi]

/-- `propagate` on the decoder state never un-assigns a decoded block. -/
theorem propagate_blocks_mono (st : DecState) (i : Nat) (v : Block)
    (h : jsGet st.blocks i = some v) :
    jsGet (propagate st).blocks i = some v :=
  propagateLoop_store_mono st.K (st.pending.length + 1) st.pending
    ⟨st.blocks, st.solved, st.solvedSource⟩ i v h

/-- `parityRecovery` on the decoder state never un-assigns a decoded block. -/
theorem parityRecovery_blocks_mono (st : DecState) (i : Nat) (v : Block)
    (h : jsGet st.blocks i = some v) :
    jsGet (parityRecovery st).blocks i = some v := by
  unfold parityRecovery
  cases hpm : st.parityMap with
  | none => exact h
  | some pm =>
    cases hk : st.K with
    | none => exact h
    | some k =>
      by_cases hk0 : k = 0
      · simp [hk0]
        exact h
      · simp only [hk0, if_false]
        exact parityRecoveryLoop_store_mono k pm _ st.pending
          ⟨st.blocks, st.solved, st.solvedSource⟩ i v h

/-- A single `receive` preserves every decoded block that still has a slot in
the resulting block array, with its exact value (on states satisfying the
reachability invariant that an unbound decoder has no block array). -/
theorem receive_preserves_blocks (st : DecState) (data : List Nat) (i : Nat) (v : Block)
    (hinv : st.fileId = none → st.blocks = [])
    (hb : jsGet st.blocks i = some v)
    (hlen : i < (receive st data).2.blocks.length) :
    jsGet (receive st data).2.blocks i = some v := by
  revert hlen
  unfold receive
  cases hp : parsePacket data with
  | none => intro _; exact hb
  | some p =>
    dsimp only
    cases hf : st.fileId with
    | none =>
      intro _
      rw [hinv hf] at hb
      rw [jsGet_eq] at hb
      simp at hb
    | some f =>
      dsimp only
      by_cases hff : p.fileId ≠ f
      · rw [if_pos hff]
        intro _
        exact hb
      · rw [if_neg hff]
        dsimp only
        by_cases hseen : p.symbolId ∈ st.seen
        · rw [if_pos hseen]
          intro _
          exact hb
        · rw [if_neg hseen]
          by_cases hmeta : p.isMetadata = true ∨ p.symbolId = 0
          · rw [if_pos hmeta]
            cases hm : st.metadata with
            | some m0 => intro _; exact hb
            | none =>
              cases hpm : parseMetadataPayload p.payload with
              | error e => intro _; exact hb
              | ok m =>
                dsimp only [acceptMetadata]
                by_cases hres :
                    st.K_prime ≠ some (m.K + (generateParityMap m.K (ceilSqrt m.K)).length)
                · rw [if_pos hres]
                  intro hlen
                  rw [List.length_map, List.length_range] at hlen
                  rw [jsGet_map_range, if_pos hlen]
                  exact hb
                · rw [if_neg hres]
                  intro _
                  exact hb
          · rw [if_neg hmeta]
            dsimp only
            intro _
            split
            · exact parityRecovery_blocks_mono _ i v (propagate_blocks_mono _ i v hb)
            · exact propagate_blocks_mono _ i v hb

/-- `propagate` does not touch the session binding. -/
theorem propagate_fileId (st : DecState) : (propagate st).fileId = st.fileId := rfl

/-- `parityRecovery` does not touch the session binding. -/
theorem parityRecovery_fileId (st : DecState) : (parityRecovery st).fileId = st.fileId := by
  unfold parityRecovery
  cases hpm : st.parityMap with
  | none => rfl
  | some pm =>
    cases hk : st.K with
    | none => rfl
    | some k =>
      dsimp only
      split
      · rfl
      · rfl

/-- After any `receive`, a decoder without a bound session still has no block
array (the only reachable state with `fileId = null` is the untouched one). -/
theorem receive_unbound_empty (st : DecState) (data : List Nat)
    (hinv : st.fileId = none → st.blocks = []) :
    (receive st data).2.fileId = none → (receive st data).2.blocks = [] := by
  unfold receive
  cases hp : parsePacket data with
  | none => exact hinv
  | some p =>
    dsimp only
    cases hf : st.fileId with
    | none =>
      intro hcon
      dsimp only at hcon
      by_cases hseen : p.symbolId ∈ st.seen
      · rw [if_pos hseen] at hcon
        simp at hcon
      · rw [if_neg hseen] at hcon
        by_cases hmeta : p.isMetadata = true ∨ p.symbolId = 0
        · rw [if_pos hmeta] at hcon
          cases hm : st.metadata with
          | some m0 =>
            rw [hm] at hcon
            simp at hcon
          | none =>
            rw [hm] at hcon
            cases hpm : parseMetadataPayload p.payload with
            | error e =>
              rw [hpm] at hcon
              simp at hcon
            | ok m =>
              rw [hpm] at hcon
              simp [acceptMetadata] at hcon
        · rw [if_neg hmeta] at hcon
          dsimp only at hcon
          split at hcon
          · rw [parityRecovery_fileId, propagate_fileId] at hcon
            simp at hcon
          · rw [propagate_fileId] at hcon
            simp at hcon
    | some f =>
      dsimp only
      by_cases hff : p.fileId ≠ f
      · rw [if_pos hff]
        exact hinv
      · rw [if_neg hff]
        dsimp only
        intro hcon
        by_cases hseen : p.symbolId ∈ st.seen
        · rw [if_pos hseen] at hcon
          rw [hf] at hcon
          cases hcon
        · rw [if_neg hseen] at hcon
          by_cases hmeta : p.isMetadata = true ∨ p.symbolId = 0
          · rw [if_pos hmeta] at hcon
            cases hm : st.metadata with
            | some m0 =>
              rw [hm] at hcon
              simp only at hcon
              rw [hf] at hcon
              cases hcon
            | none =>
              rw [hm] at hcon
              cases hpm : parseMetadataPayload p.payload with
              | error e =>
                rw [hpm] at hcon
                simp only at hcon
                rw [hf] at hcon
                cases hcon
              | ok m =>
                rw [hpm] at hcon
                simp only [acceptMetadata] at hcon
                rw [hf] at hcon
                cases hcon
          · rw [if_neg hmeta] at hcon
            dsimp only at hcon
            split at hcon
            · rw [parityRecovery_fileId, propagate_fileId] at hcon
              simp only at hcon
              rw [hf] at hcon
              cases hcon
            · rw [propagate_fileId] at hcon
              simp only at hcon
              rw [hf] at hcon
              cases hcon

/-- A fresh decoder that has processed any packet list and still has no bound
session has no block array. -/
theorem runDecoder_unbound_empty (packets : List (List Nat)) :
    (runDecoder packets).fileId = none → (runDecoder packets).blocks = [] := by
  suffices h : ∀ (l : List (List Nat)) (st : DecState), (st.fileId = none → st.blocks = []) →
      ((l.foldl (fun s d => (receive s d).2) st).fileId = none →
        (l.foldl (fun s d => (receive s d).2) st).blocks = []) by
    exact h packets initDecoder (fun _ => rfl)
  intro l
  induction l with
  | nil => intro st h; exact h
  | cons d t ih => intro st h; exact ih _ (receive_unbound_empty st d h)

/-- A data packet with symbol id 8 against header `K′ = 9` (session 7): the
decoder stores its payload at intermediate index 7. -/
def d8Pkt : List Nat := createPacket 7 9 8 [5] false 200 0 0

/-- The metadata packet of session 7 declaring `K = 3` (canonical `K′ = 7`). -/
def m3Pkt : List Nat :=
  [1] ++ be32bytes 7 ++ be32bytes 9 ++ be32bytes 0 ++ [0, 200] ++ [1] ++
    (createMetadataPayload [] [] 450 hash32 3 0).toOption.getD []

/-- A systematic data packet (id 1) of session 7. -/
def p1Pkt : List Nat := createPacket 7 9 1 [9] false 200 0 0

/-- C8 counterexample: the reallocation on metadata arrival does not preserve
all previously decoded entries.  Block 7 is decoded before the metadata
packet; the canonical `K′ = 7` reallocation copies only indices `< 7`, so the
decoded entry at index 7 is dropped (the new array has no slot 7 at all). -/
theorem c8_resize_drops_block :
    jsGet (runDecoder [d8Pkt]).blocks 7 = some [5] ∧
    (runDecoder [d8Pkt, m3Pkt]).blocks.length = 7 ∧
    jsGet (runDecoder [d8Pkt, m3Pkt]).blocks 7 = none := by
  refine ⟨by decide, by decide, by decide⟩

/-- C8 (amended): block slots are write-once below the surviving length —
after one more received packet, every decoded entry whose index is still
within the (possibly reallocated) block array holds exactly its old value;
entries at indices at or beyond the canonical `K′` are discarded by the
metadata reallocation (`c8_resize_drops_block`). -/
theorem c8_blocks_preserved (packets : List (List Nat)) (data : List Nat) (i : Nat) (v : Block)
    (hb : jsGet (runDecoder packets).blocks i = some v)
    (hlen : i < (runDecoder (packets ++ [data])).blocks.length) :
    jsGet (runDecoder (packets ++ [data])).blocks i = some v := by
  have hstep : runDecoder (packets ++ [data]) = (receive (runDecoder packets) data).2 := by
    unfold runDecoder
    rw [List.foldl_append]
    rfl
  rw [hstep] at hlen ⊢
  exact receive_preserves_blocks _ data i v (runDecoder_unbound_empty packets) hb hlen

/-- Witness for C8 on a concrete two-packet run. -/
theorem c8_blocks_preserved_witness :
    jsGet (runDecoder ([d8Pkt] ++ [p1Pkt])).blocks 7 = some [5] :=
  c8_blocks_preserved [d8Pkt] p1Pkt 7 [5] (by decide) (by decide)

/-! ### C3 -/

/-- Packet round-trip: parsing a created packet recovers its fields (the
payload as stored bytes). -/
theorem parsePacket_createPacket (fid k sid : Nat) (payload : List Nat)
    (meta : Bool) (bs mode sp : Nat)
    (hfid : fid < 2 ^ 32) (hk : k < 2 ^ 32) (hsid : sid < 2 ^ 32) (hbs : bs < 2 ^ 16) :
    parsePacket (createPacket fid k sid payload meta bs mode sp) =
      some ⟨fid, k, sid, bs, meta, mode % 4, sp % 4, payload.map (· % 256)⟩ := by
  unfold createPacket parsePacket
  have hflags : (if meta then 1 else 0) + 2 * (mode % 4) + 8 * (sp % 4) < 256 := by
    have h1 : (if meta then 1 else 0) ≤ 1 := by split <;> omega
    have h2 : mode % 4 < 4 := Nat.mod_lt mode (by omega)
    have h3 : sp % 4 < 4 := Nat.mod_lt sp (by omega)
    omega
  rw [if_neg (by simp [be32bytes])]
  rw [if_neg (by simp [List.getD])]
  have hdrop : ∀ l2 : List Nat, ([1] ++ be32bytes fid ++ be32bytes k ++ be32bytes sid ++
      [bs / 256 % 256, bs % 256] ++
      [(if meta then 1 else 0) + 2 * (mode % 4) + 8 * (sp % 4)] ++ l2).drop 16 = l2 := by
    intro l2
    simp [be32bytes]
  congr 1
  refine Packet.mk.injEq _ _ _ _ _ _ _ _ _ _ _ _ _ _ _ _ |>.mpr ?_
  refine ⟨?_, ?_, ?_, ?_, ?_, ?_, ?_, ?_⟩
  · show readU32 (List.drop 1 _) = fid
    have : ([1] ++ be32bytes fid ++ be32bytes k ++ be32bytes sid ++
        [bs / 256 % 256, bs % 256] ++
        [(if meta then 1 else 0) + 2 * (mode % 4) + 8 * (sp % 4)] ++ payload.map (· % 256)).drop 1
        = be32bytes fid ++ (be32bytes k ++ be32bytes sid ++ [bs / 256 % 256, bs % 256] ++
          [(if meta then 1 else 0) + 2 * (mode % 4) + 8 * (sp % 4)] ++ payload.map (· % 256)) := by
      simp [be32bytes]
    rw [this, readU32_be32 fid _ hfid]
  · show readU32 (List.drop 5 _) = k
    have : ([1] ++ be32bytes fid ++ be32bytes k ++ be32bytes sid ++
        [bs / 256 % 256, bs % 256] ++
        [(if meta then 1 else 0) + 2 * (mode % 4) + 8 * (sp % 4)] ++ payload.map (· % 256)).drop 5
        = be32bytes k ++ (be32bytes sid ++ [bs / 256 % 256, bs % 256] ++
          [(if meta then 1 else 0) + 2 * (mode % 4) + 8 * (sp % 4)] ++ payload.map (· % 256)) := by
      simp [be32bytes]
    rw [this, readU32_be32 k _ hk]
  · show readU32 (List.drop 9 _) = sid
    have : ([1] ++ be32bytes fid ++ be32bytes k ++ be32bytes sid ++
        [bs / 256 % 256, bs % 256] ++
        [(if meta then 1 else 0) + 2 * (mode % 4) + 8 * (sp % 4)] ++ payload.map (· % 256)).drop 9
        = be32bytes sid ++ ([bs / 256 % 256, bs % 256] ++
          [(if meta then 1 else 0) + 2 * (mode % 4) + 8 * (sp % 4)] ++ payload.map (· % 256)) := by
      simp [be32bytes]
    rw [this, readU32_be32 sid _ hsid]
  · show _ * 256 + _ = bs
    simp [be32bytes, List.getD]
    omega
  · show decide _ = meta
    simp [be32bytes, List.getD]
    rcases meta with _ | _ <;> simp <;> omega
  · show _ / 2 % 4 = mode % 4
    simp [be32bytes, List.getD]
    rcases meta with _ | _ <;> simp <;> omega
  · show _ / 8 % 4 = sp % 4
    simp [be32bytes, List.getD]
    rcases meta with _ | _ <;> simp <;> omega
  · exact hdrop _

/-- Raw element view of a JS array write. -/
theorem getElem?_jsWrite (l : List (Option Block)) (i : Nat) (v : Block) (j : Nat) :
    (jsWrite l i v)[j]? =
      if j = i then some (some v)
      else if j < l.length then l[j]?
      else if j < max l.length (i + 1) then some none
      else none := by
  unfold jsWrite
  by_cases hi : i < l.length
  · rw [if_pos hi]
    rcases eq_or_ne j i with rfl | hne
    · simp [List.getElem?_set_eq_of_lt (some v) hi, hi]
    · rw [List.getElem?_set_ne (Ne.symm hne), if_neg hne]
      by_cases hj : j < l.length
      · rw [if_pos hj]
      · rw [if_neg hj, if_neg (by omega), List.getElem?_eq_none (by omega)]
  · rw [if_neg hi]
    push_neg at hi
    have hlen2 : (l ++ List.replicate (i - l.length) none).length = i := by
      simp
      omega
    rcases eq_or_ne j i with rfl | hne
    · rw [List.getElem?_append_right hlen2.le]
      simp [hlen2]
    · rw [if_neg hne]
      by_cases hj : j < l.length
      · rw [if_pos hj, List.append_assoc, List.getElem?_append_left hj]
      · push_neg at hj
        rw [if_neg (by omega)]
        by_cases hji : j < i
        · rw [if_pos (by omega), List.getElem?_append_left (by simp [hlen2]; omega),
            List.getElem?_append_right hj, List.getElem?_replicate]
          have hlt : j - l.length < i - l.length := by omega
          simp [hlt]
        · rw [if_neg (by omega), List.getElem?_eq_none
            (by simp only [List.length_append, hlen2]; simp; omega)]

/-- Writes at distinct indices commute (lengths and holes included). -/
theorem jsWrite_comm (l : List (Option Block)) (i1 i2 : Nat) (v1 v2 : Block)
    (hne : i1 ≠ i2) :
    jsWrite (jsWrite l i1 v1) i2 v2 = jsWrite (jsWrite l i2 v2) i1 v1 := by
  apply List.ext_getElem?
  intro j
  have hlen1 := jsWrite_length l i1 v1
  have hlen2 := jsWrite_length l i2 v2
  rw [getElem?_jsWrite, getElem?_jsWrite, getElem?_jsWrite, getElem?_jsWrite,
    hlen1, hlen2]
  split_ifs <;> first | rfl | omega

/-- The decoder state reached by feeding only systematic data packets of one
session (header fields `fileId = f`, `k = hk`): no metadata, no parity map,
empty pending list. -/
def sysState (f hk : Nat) (bl : List (Option Block)) (seen : Finset Nat) (sv : Nat) :
    DecState :=
  ⟨some f, none, some hk, none, none, none, 200, bl, sv, 0, seen, []⟩

/-- `propagate` does not touch the parity map. -/
theorem propagate_parityMap (st : DecState) : (propagate st).parityMap = st.parityMap := rfl

/-- Propagation of a single degree-1 constraint: assign the block if the slot
is free (the payload arrives unchanged), otherwise discard the constraint. -/
theorem propagateLoop_singleton (K : Option Nat) (idx : Nat) (pl : Block) (stw : Store) :
    propagateLoop K ([(⟨[idx], pl⟩ : Constraint)].length + 1) [⟨[idx], pl⟩] stw =
      if jsGet stw.blocks idx = none then
        ([], ⟨jsWrite stw.blocks idx pl, stw.solved + 1, stw.solvedSource +
          (match K with | some k => if idx < k then 1 else 0 | none => 0)⟩)
      else ([], stw) := by
  cases hg : jsGet stw.blocks idx with
  | some known =>
    simp [propagateLoop, propagateOnce, decReduce, reduceGo, hg]
  | none =>
    simp [propagateLoop, propagateOnce, decReduce, reduceGo, hg]

/-- A systematic receive on a systematic-phase state: a duplicate id is a
no-op; otherwise the packet's payload lands verbatim at index `id − 1` if the
slot is free, and is discarded if it is already decoded. -/
theorem receive_systematic (f hk id : Nat) (payload : List Nat)
    (bl : List (Option Block)) (seen : Finset Nat) (sv : Nat)
    (hf : f < 2 ^ 32) (hhk : hk < 2 ^ 32) (hid1 : 1 ≤ id) (hidk : id ≤ hk) :
    (receive (sysState f hk bl seen sv) (createPacket f hk id payload false 200 0 0)).2 =
      if id ∈ seen then sysState f hk bl seen sv
      else if jsGet bl (id - 1) = none then
        sysState f hk (jsWrite bl (id - 1) (payload.map (· % 256))) (insert id seen) (sv + 1)
      else sysState f hk bl (insert id seen) sv := by
  unfold receive
  rw [parsePacket_createPacket f hk id payload false 200 0 0 hf hhk (by omega) (by decide)]
  dsimp only [sysState]
  rw [if_neg (by simp)]
  dsimp only
  by_cases hseen : id ∈ seen
  · rw [if_pos hseen, if_pos hseen]
  · rw [if_neg hseen, if_neg hseen]
    rw [if_neg (by simp; omega)]
    dsimp only [Option.getD_some]
    have hidx : symbolIndices f hk id = [id - 1] := by
      unfold symbolIndices
      rw [if_pos hidk, Nat.mod_eq_of_lt (by omega)]
    rw [hidx]
    rw [if_neg (by simp [propagate_parityMap])]
    dsimp only [propagate]
    rw [show ([] : List Constraint) ++ [(⟨[id - 1], payload.map (· % 256)⟩ : Constraint)]
      = [(⟨[id - 1], payload.map (· % 256)⟩ : Constraint)] from rfl]
    rw [propagateLoop_singleton]
    cases hg : jsGet bl (id - 1) with
    | none =>
      rw [if_pos rfl]
      rfl
    | some known =>
      rw [if_neg (fun hc => Option.noConfusion hc)]
      rfl

/-- The pure effect of one systematic receive on (blocks, seen, solved). -/
def sysStep (t : List (Option Block) × Finset Nat × Nat) (q : Nat × List Nat) :
    List (Option Block) × Finset Nat × Nat :=
  if q.1 ∈ t.2.1 then t
  else if jsGet t.1 (q.1 - 1) = none then
    (jsWrite t.1 (q.1 - 1) (q.2.map (· % 256)), insert q.1 t.2.1, t.2.2 + 1)
  else (t.1, insert q.1 t.2.1, t.2.2)

/-- Systematic receives with distinct ids commute. -/
theorem sysStep_comm (x y : Nat × List Nat) (hxy : x.1 ≠ y.1)
    (hx1 : 1 ≤ x.1) (hy1 : 1 ≤ y.1) (t : List (Option Block) × Finset Nat × Nat) :
    sysStep (sysStep t x) y = sysStep (sysStep t y) x := by
  obtain ⟨bl, seen, sv⟩ := t
  have hidx : x.1 - 1 ≠ y.1 - 1 := by omega
  unfold sysStep
  by_cases hxs : x.1 ∈ seen <;> by_cases hys : y.1 ∈ seen
  · simp [hxs, hys]
  · simp only [hxs, hys, ite_true, ite_false, if_true, if_false]
    by_cases hgy : jsGet bl (y.1 - 1) = none <;>
      simp [hgy, Finset.mem_insert, hxs, hys, hxy, Ne.symm hxy, jsGet_jsWrite, hidx]
  · simp only [hxs, hys, ite_true, ite_false, if_true, if_false]
    by_cases hgx : jsGet bl (x.1 - 1) = none <;>
      simp [hgx, Finset.mem_insert, hxs, hys, hxy, Ne.symm hxy, jsGet_jsWrite, hidx]
  · simp only [hxs, hys, ite_true, ite_false, if_true, if_false]
    by_cases hgx : jsGet bl (x.1 - 1) = none <;>
      by_cases hgy : jsGet bl (y.1 - 1) = none <;>
        simp [hgx, hgy, Finset.mem_insert, hxs, hys, hxy, Ne.symm hxy, jsGet_jsWrite,
          hidx, Ne.symm hidx, jsWrite_comm bl (x.1 - 1) (y.1 - 1) _ _ hidx,
          Finset.Insert.comm]

/-- Folding systematic receives from a systematic-phase state is the pure
`sysStep` fold on (blocks, seen, solved). -/
theorem sysFold (f hk : Nat) (hf : f < 2 ^ 32) (hhk : hk < 2 ^ 32) :
    ∀ (l : List (Nat × List Nat)), (∀ q ∈ l, 1 ≤ q.1 ∧ q.1 ≤ hk) →
    ∀ bl seen sv,
      List.foldl (fun s d => (receive s d).2) (sysState f hk bl seen sv)
          (l.map fun q => createPacket f hk q.1 q.2 false 200 0 0) =
        sysState f hk (l.foldl sysStep (bl, seen, sv)).1
          (l.foldl sysStep (bl, seen, sv)).2.1 (l.foldl sysStep (bl, seen, sv)).2.2 := by
  intro l
  induction l with
  | nil => intro _ bl seen sv; rfl
  | cons q rest ih =>
    intro hrange bl seen sv
    simp only [List.map_cons, List.foldl_cons]
    have hq := hrange q (List.mem_cons_self q rest)
    rw [receive_systematic f hk q.1 q.2 bl seen sv hf hhk hq.1 hq.2]
    have htail := fun p hp => hrange p (List.mem_cons_of_mem q hp)
    by_cases h1 : q.1 ∈ seen
    · rw [if_pos h1, show sysStep (bl, seen, sv) q = (bl, seen, sv) from by
        simp [sysStep, h1]]
      exact ih htail bl seen sv
    · rw [if_neg h1]
      by_cases h2 : jsGet bl (q.1 - 1) = none
      · rw [if_pos h2, show sysStep (bl, seen, sv) q =
          (jsWrite bl (q.1 - 1) (q.2.map (· % 256)), insert q.1 seen, sv + 1) from by
            simp [sysStep, h1, h2]]
        exact ih htail _ _ _
      · rw [if_neg h2, show sysStep (bl, seen, sv) q = (bl, insert q.1 seen, sv) from by
          simp [sysStep, h1, h2]]
        exact ih htail _ _ _

/-- The first systematic packet binds the session and then behaves exactly as
on the freshly bound systematic-phase state. -/
theorem receive_init_systematic (f hk id : Nat) (payload : List Nat)
    (hf : f < 2 ^ 32) (hhk : hk < 2 ^ 32) (hsid : id < 2 ^ 32) :
    (receive initDecoder (createPacket f hk id payload false 200 0 0)).2 =
      (receive (sysState f hk (List.replicate hk none) ∅ 0)
        (createPacket f hk id payload false 200 0 0)).2 := by
  unfold receive
  rw [parsePacket_createPacket f hk id payload false 200 0 0 hf hhk hsid (by decide)]
  dsimp only [initDecoder, sysState]
  rw [if_neg (show ¬(f ≠ f) from by simp)]

/-- C3 (amended): decoding is order-invariant on multisets of systematic data
packets with pairwise distinct symbol ids (one session, ids in `1 … K′`, no
metadata): any two receive orders drive a fresh decoder to the same terminal
state.  (The counterexample `c3_order_dependent` shows that for general
multisets — two packets sharing a symbol id with different payloads — the
terminal state depends on the order.) -/
theorem c3_systematic_perm_invariant (f hk : Nat) (l1 l2 : List (Nat × List Nat))
    (hf : f < 2 ^ 32) (hhk : hk < 2 ^ 32) (hperm : l1.Perm l2)
    (hrange : ∀ q ∈ l1, 1 ≤ q.1 ∧ q.1 ≤ hk)
    (hnodup : (l1.map Prod.fst).Nodup) :
    runDecoder (l1.map fun q => createPacket f hk q.1 q.2 false 200 0 0) =
      runDecoder (l2.map fun q => createPacket f hk q.1 q.2 false 200 0 0) := by
  have comm : ∀ a ∈ l1, ∀ b ∈ l1, ∀ t, sysStep (sysStep t a) b = sysStep (sysStep t b) a := by
    intro a ha b hb t
    by_cases hab : a = b
    · subst hab
      rfl
    · have hids : a.1 ≠ b.1 := fun he => hab (List.inj_on_of_nodup_map hnodup ha hb he)
      exact sysStep_comm a b hids (hrange a ha).1 (hrange b hb).1 t
  have hrun : ∀ (z : Nat × List Nat) (zs : List (Nat × List Nat)),
      (∀ q ∈ z :: zs, 1 ≤ q.1 ∧ q.1 ≤ hk) →
      runDecoder ((z :: zs).map fun q => createPacket f hk q.1 q.2 false 200 0 0) =
        sysState f hk ((z :: zs).foldl sysStep (List.replicate hk none, ∅, 0)).1
          ((z :: zs).foldl sysStep (List.replicate hk none, ∅, 0)).2.1
          ((z :: zs).foldl sysStep (List.replicate hk none, ∅, 0)).2.2 := by
    intro z zs hr
    unfold runDecoder
    simp only [List.map_cons, List.foldl_cons]
    rw [receive_init_systematic f hk z.1 z.2 hf hhk
      (by have := (hr z (List.mem_cons_self z zs)).2; omega)]
    have := sysFold f hk hf hhk (z :: zs) hr (List.replicate hk none) ∅ 0
    simpa [List.map_cons, List.foldl_cons] using this
  cases l1 with
  | nil =>
    have h2 : l2 = [] := hperm.symm.eq_nil
    rw [h2]
  | cons x rest =>
    cases l2 with
    | nil =>
      have := hperm.eq_nil
      cases this
    | cons y rest2 =>
      rw [hrun x rest hrange, hrun y rest2
        (fun q hq => hrange q (hperm.symm.subset hq))]
      rw [List.Perm.foldl_eq' hperm comm (List.replicate hk none, ∅, 0)]

/-- Two packets of one session sharing symbol id 1 but with different
payloads. -/
def dupA : List Nat := createPacket 7 2 1 [1] false 200 0 0

/-- The conflicting sibling of `dupA`. -/
def dupB : List Nat := createPacket 7 2 1 [2] false 200 0 0

/-- C3 counterexample: decoding is not order-invariant for an arbitrary
packet multiset.  Duplicate suppression keys on the symbol id alone, so of
two packets sharing id 1 with different payloads whichever arrives first
wins: the two orders of the same multiset end in different terminal states
(block 0 holds `[1]` in one and `[2]` in the other). -/
theorem c3_order_dependent :
    [dupA, dupB].Perm [dupB, dupA] ∧
    jsGet (runDecoder [dupA, dupB]).blocks 0 = some [1] ∧
    jsGet (runDecoder [dupB, dupA]).blocks 0 = some [2] ∧
    runDecoder [dupA, dupB] ≠ runDecoder [dupB, dupA] := by
  refine ⟨by decide, by decide, by decide, by decide⟩

/-- Witness for the amended C3 on a concrete two-packet swap. -/
theorem c3_systematic_perm_invariant_witness :
    runDecoder ([(1, [3]), (2, [4])].map fun q => createPacket 7 2 q.1 q.2 false 200 0 0) =
      runDecoder ([(2, [4]), (1, [3])].map fun q => createPacket 7 2 q.1 q.2 false 200 0 0) :=
  c3_systematic_perm_invariant 7 2 [(1, [3]), (2, [4])] [(2, [4]), (1, [3])]
    (by decide) (by decide) (by decide) (by decide) (by decide)


/-! ### C10 -/

/-- The number of decoded blocks among intermediate indices `0 … k-1`. -/
def solvedBelow (k : Nat) (bl : List (Option Block)) : Nat :=
  ((List.range k).filter (fun i => (jsGet bl i).isSome)).length

/-- Adding one satisfied member to a duplicate-free list bumps the filter
count by one. -/
theorem length_filter_update (L : List Nat) (hL : L.Nodup) (p : Nat → Bool) (x0 : Nat)
    (hx0 : x0 ∈ L) (hp : p x0 = false) :
    (L.filter (fun i => i = x0 || p i)).length = (L.filter p).length + 1 := by
  induction L with
  | nil => cases hx0
  | cons a t ih =>
    by_cases hax : a = x0
    · have hat : x0 ∉ t := by rw [← hax]; exact (List.nodup_cons.mp hL).1
      have hcongr : t.filter (fun i => i = x0 || p i) = t.filter p := by
        refine List.filter_congr ?_
        intro x hx
        have hxa : ¬(x = x0) := fun he => hat (he ▸ hx)
        simp [hxa]
      have hpa : p a = false := by rw [hax]; exact hp
      simp [List.filter_cons, hax, hpa, hcongr, hp]
    · have hmem : x0 ∈ t := by
        rcases List.mem_cons.mp hx0 with h | h
        · exact absurd h.symm hax
        · exact h
      have ht := ih (List.nodup_cons.mp hL).2 hmem
      have hda : (decide (a = x0) || p a) = p a := by simp [hax]
      simp only [List.filter_cons, hda]
      cases hpa : p a with
      | true => simp [ht]
      | false => simp [ht]

/-- Writing into a free slot raises `solvedBelow k` by one exactly when the
index lies below `k`. -/
theorem solvedBelow_jsWrite (bl : List (Option Block)) (idx k : Nat) (v : Block)
    (h : jsGet bl idx = none) :
    solvedBelow k (jsWrite bl idx v) =
      solvedBelow k bl + (if idx < k then 1 else 0) := by
  unfold solvedBelow
  by_cases hik : idx < k
  · rw [if_pos hik]
    have hcongr : ∀ i ∈ List.range k,
        ((jsGet (jsWrite bl idx v) i).isSome) = (i = idx || (jsGet bl i).isSome) := by
      intro i _
      rw [jsGet_jsWrite]
      by_cases hi : i = idx
      · simp [hi]
      · simp [hi]
    rw [List.filter_congr hcongr]
    exact length_filter_update _ (List.nodup_range k) _ idx (List.mem_range.mpr hik)
      (by simp [h])
  · rw [if_neg hik, Nat.add_zero]
    refine congrArg _ (List.filter_congr ?_)
    intro i hi
    rw [jsGet_jsWrite, if_neg (by have := List.mem_range.mp hi; omega)]

/-- The decoder's nested recount loop over `0 … nk-1` guarded by `i < Kv`
equals the plain count below `Kv` when `Kv ≤ nk`. -/
theorem filter_range_and_lt (p : Nat → Bool) (Kv nk : Nat) (h : Kv ≤ nk) :
    ((List.range nk).filter (fun i => p i && decide (i < Kv))).length =
      ((List.range Kv).filter p).length := by
  obtain ⟨d, rfl⟩ := Nat.exists_eq_add_of_le h
  rw [List.range_add, List.filter_append, List.length_append]
  have h2 : ((List.range d).map (Kv + ·)).filter (fun i => p i && decide (i < Kv)) = [] := by
    rw [List.filter_map]
    have h3 : ((List.range d).filter ((fun i => p i && decide (i < Kv)) ∘ (Kv + ·))) = [] := by
      refine List.filter_eq_nil_iff.mpr ?_
      intro a _
      simp [Function.comp]
    rw [h3]
    rfl
  rw [h2]
  simp only [List.length_nil, Nat.add_zero]
  refine congrArg _ (List.filter_congr ?_)
  intro i hi
  have := List.mem_range.mp hi
  simp [this]

/-- Every index named by any group of the parity map is a source index,
i.e. lies below `K` (all three layers only push `j < K`). -/
theorem parityMap_mem_lt (K G : Nat) (g : List Nat) (hg : g ∈ generateParityMap K G)
    (j : Nat) (hj : j ∈ g) : j < K := by
  unfold generateParityMap at hg
  rcases List.mem_append.mp hg with h12 | h3
  · rcases List.mem_append.mp h12 with h1 | h2
    · obtain ⟨i, hi, hgr⟩ := List.mem_map.mp h1
      rw [← hgr] at hj
      have := (jsRange_mem _ _ j).mp hj
      omega
    · obtain ⟨i, hi, hfi⟩ := List.mem_filterMap.mp h2
      dsimp only at hfi
      split at hfi
      · have hgr : g = jsRange (G / 2 + i * G) (min (G / 2 + i * G + G) K) :=
          (Option.some.inj hfi).symm
        rw [hgr] at hj
        have := (jsRange_mem _ _ j).mp hj
        omega
      · exact absurd hfi (by simp)
  · obtain ⟨i, hi, hfi⟩ := List.mem_filterMap.mp h3
    dsimp only at hfi
    split at hfi
    · have hgr : g = (List.range K).filter (fun j => decide (i ≤ j ∧ (j - i) % G = 0)) :=
        (Option.some.inj hfi).symm
      rw [hgr] at hj
      exact List.mem_range.mp (List.mem_filter.mp hj).1
    · exact absurd hfi (by simp)

/-- A propagation scan keeps `solvedSource` equal to the count of decoded
blocks below `K`: the guarded increment fires exactly when the assigned
index lies below `K`. -/
theorem propagateOnce_count (k : Nat) (l : List Constraint) (st : Store)
    (h : st.solvedSource = solvedBelow k st.blocks) :
    (propagateOnce (some k) l st).store.solvedSource =
      solvedBelow k (propagateOnce (some k) l st).store.blocks := by
  induction l generalizing st with
  | nil => simpa [propagateOnce] using h
  | cons c rest ih =>
    have hr := ih st h
    simp only [propagateOnce]
    cases hred : (decReduce (propagateOnce (some k) rest st).store.blocks c).indices with
    | nil => exact hr
    | cons a t =>
      cases t with
      | nil =>
        simp only
        split
        · next hnone =>
          dsimp only
          rw [solvedBelow_jsWrite _ _ _ _ hnone, hr]
        · exact hr
      | cons b t2 => exact hr

/-- The propagation loop keeps `solvedSource` equal to the count of decoded
blocks below `K`. -/
theorem propagateLoop_count (k fuel : Nat) (pending : List Constraint) (st : Store)
    (h : st.solvedSource = solvedBelow k st.blocks) :
    (propagateLoop (some k) fuel pending st).2.solvedSource =
      solvedBelow k (propagateLoop (some k) fuel pending st).2.blocks := by
  induction fuel generalizing pending st with
  | zero => exact h
  | succ f ih =>
    simp only [propagateLoop]
    cases hc : (propagateOnce (some k) pending st).changed with
    | false =>
      simp only [Bool.false_eq_true, if_false]
      exact propagateOnce_count k pending st h
    | true =>
      simp only [if_true]
      exact ih _ _ (propagateOnce_count k pending st h)

/-- A parity pass keeps `solvedSource` equal to the count of decoded blocks
below `K`, because every index it assigns is named by a parity-map group and
those all lie below `K`. -/
theorem parityOnce_count (k : Nat) (groups : List (List Nat)) :
    ∀ (p : Nat) (st : Store), (∀ g ∈ groups, ∀ j ∈ g, j < k) →
      st.solvedSource = solvedBelow k st.blocks →
      (parityOnce k groups p st).1.solvedSource =
        solvedBelow k (parityOnce k groups p st).1.blocks := by
  induction groups with
  | nil =>
    intro p st _ h
    simpa [parityOnce] using h
  | cons g rest ih =>
    intro p st hg h
    have hgrest : ∀ g2 ∈ rest, ∀ j ∈ g2, j < k :=
      fun g2 hg2 => hg g2 (List.mem_cons_of_mem g hg2)
    simp only [parityOnce]
    cases hpar : jsGet st.blocks (k + p) with
    | none => exact ih (p + 1) st hgrest h
    | some parity =>
      simp only
      cases hfil : g.filter (fun i => (jsGet st.blocks i).isNone) with
      | nil => exact ih (p + 1) st hgrest h
      | cons m t =>
        cases t with
        | nil =>
          simp only
          refine ih (p + 1) _ hgrest ?_
          have hm : m ∈ g.filter (fun i => (jsGet st.blocks i).isNone) := by
            rw [hfil]
            exact List.mem_singleton_self m
          have hmf := List.mem_filter.mp hm
          have hmk : m < k := hg g (List.mem_cons_self g rest) m hmf.1
          have hmnone : jsGet st.blocks m = none := by
            cases hx : jsGet st.blocks m with
            | none => rfl
            | some v =>
              rw [hx] at hmf
              simp at hmf
          dsimp only
          rw [solvedBelow_jsWrite _ _ _ _ hmnone, h, if_pos hmk]
        | cons b t2 => exact ih (p + 1) st hgrest h

/-- The parity-recovery loop keeps `solvedSource` equal to the count of
decoded blocks below `K`. -/
theorem parityRecoveryLoop_count (k : Nat) (pm : List (List Nat))
    (hg : ∀ g ∈ pm, ∀ j ∈ g, j < k) :
    ∀ (fuel : Nat) (pending : List Constraint) (st : Store),
      st.solvedSource = solvedBelow k st.blocks →
      (parityRecoveryLoop k pm fuel pending st).2.solvedSource =
        solvedBelow k (parityRecoveryLoop k pm fuel pending st).2.blocks := by
  intro fuel
  induction fuel with
  | zero =>
    intro pending st h
    exact h
  | succ f ih =>
    intro pending st h
    simp only [parityRecoveryLoop]
    cases hc : (parityOnce k pm 0 st).2 with
    | false =>
      simp only [Bool.false_eq_true, if_false]
      exact parityOnce_count k pm 0 st hg h
    | true =>
      simp only [if_true]
      exact ih _ _ (propagateLoop_count k _ _ _ (parityOnce_count k pm 0 st hg h))

/-- `propagate` does not touch the bound source-block count. -/
theorem propagate_K (st : DecState) : (propagate st).K = st.K := rfl

/-- `propagate` does not touch the metadata. -/
theorem propagate_metadata (st : DecState) : (propagate st).metadata = st.metadata := rfl

/-- `parityRecovery` does not touch the bound source-block count. -/
theorem parityRecovery_K (st : DecState) : (parityRecovery st).K = st.K := by
  unfold parityRecovery
  cases hpm : st.parityMap with
  | none => rfl
  | some pm =>
    cases hk : st.K with
    | none => exact hk
    | some k =>
      dsimp only
      split
      · exact hk
      · rfl

/-- `parityRecovery` does not touch the metadata. -/
theorem parityRecovery_metadata (st : DecState) :
    (parityRecovery st).metadata = st.metadata := by
  unfold parityRecovery
  cases hpm : st.parityMap with
  | none => rfl
  | some pm =>
    cases hk : st.K with
    | none => rfl
    | some k =>
      dsimp only
      split
      · rfl
      · rfl

/-- `parityRecovery` does not touch the parity map. -/
theorem parityRecovery_parityMap (st : DecState) :
    (parityRecovery st).parityMap = st.parityMap := by
  unfold parityRecovery
  cases hpm : st.parityMap with
  | none => exact hpm
  | some pm =>
    cases hk : st.K with
    | none => exact hpm
    | some k =>
      dsimp only
      split
      · exact hpm
      · rfl

/-- `propagate` keeps the counter consistent once `K` is bound. -/
theorem propagate_count (st : DecState) (k : Nat) (hk : st.K = some k)
    (h : st.solvedSource = solvedBelow k st.blocks) :
    (propagate st).solvedSource = solvedBelow k (propagate st).blocks := by
  unfold propagate
  dsimp only
  rw [hk]
  exact propagateLoop_count k _ _ _ h

/-- `parityRecovery` keeps the counter consistent once `K` and the (canonical)
parity map are bound. -/
theorem parityRecovery_count (st : DecState) (k : Nat) (pm : List (List Nat))
    (hk : st.K = some k) (hpm : st.parityMap = some pm)
    (hg : ∀ g ∈ pm, ∀ j ∈ g, j < k)
    (h : st.solvedSource = solvedBelow k st.blocks) :
    (parityRecovery st).solvedSource = solvedBelow k (parityRecovery st).blocks := by
  unfold parityRecovery
  rw [hpm, hk]
  dsimp only
  split
  · exact h
  · exact parityRecoveryLoop_count k pm hg _ _ _ h

/-- The counter-consistency invariant: once the metadata packet has been
accepted, `K` and the parity map hold the canonical values derived from the
metadata's `K`, and `solvedSource` counts exactly the decoded entries among
block indices `0 … K-1`. -/
def counterInv (st : DecState) : Prop :=
  ∀ m, st.metadata = some m →
    st.K = some m.K ∧
    st.parityMap = some (generateParityMap m.K (ceilSqrt m.K)) ∧
    st.solvedSource = solvedBelow m.K st.blocks

/-- Accepting a metadata packet establishes the invariant: the recount loop
over `0 … K′-1` guarded by `i < K` is exactly the count below `K`. -/
theorem acceptMetadata_counterInv (st : DecState) (m0 : Meta) :
    counterInv (acceptMetadata st m0) := by
  intro m hm
  have hm0 : m = m0 := by
    dsimp only [acceptMetadata] at hm
    exact (Option.some.inj hm).symm
  subst hm0
  dsimp only [acceptMetadata]
  refine ⟨rfl, rfl, ?_⟩
  unfold solvedBelow
  exact filter_range_and_lt _ _ _ (Nat.le_add_right _ _)

/-- A state without metadata satisfies the counter invariant vacuously. -/
theorem counterInv_of_no_metadata (s : DecState) (hs : s.metadata = none) :
    counterInv s := by
  intro m hm
  rw [hs] at hm
  exact absurd hm (by simp)

/-- The counter invariant transfers along equality of the fields it reads. -/
theorem counterInv_congr (s t : DecState)
    (hmeta : t.metadata = s.metadata) (hK : t.K = s.K)
    (hpm : t.parityMap = s.parityMap) (hss : t.solvedSource = s.solvedSource)
    (hbl : t.blocks = s.blocks) (h : counterInv s) : counterInv t := by
  intro m hm
  rw [hmeta] at hm
  obtain ⟨h1, h2, h3⟩ := h m hm
  exact ⟨hK.trans h1, hpm.trans h2, by rw [hss, hbl]; exact h3⟩

/-- The data-packet tail of `receive` — LT propagation followed by the
conditional parity recovery — preserves the counter invariant. -/
theorem counterInv_propagate_parity (s : DecState) (hinv : counterInv s) :
    counterInv (if (propagate s).isComplete = false ∧ (propagate s).parityMap.isSome
                then parityRecovery (propagate s) else propagate s) := by
  have h3 : counterInv (propagate s) := by
    intro m hm
    rw [propagate_metadata] at hm
    obtain ⟨h1, h2, hss⟩ := hinv m hm
    refine ⟨by rw [propagate_K]; exact h1, by rw [propagate_parityMap]; exact h2, ?_⟩
    exact propagate_count s m.K h1 hss
  split
  · intro m hm
    rw [parityRecovery_metadata] at hm
    obtain ⟨h1, h2, hss⟩ := h3 m hm
    refine ⟨by rw [parityRecovery_K]; exact h1,
      by rw [parityRecovery_parityMap]; exact h2, ?_⟩
    exact parityRecovery_count (propagate s) m.K _ h1 h2
      (fun g hg j hj => parityMap_mem_lt _ _ g hg j hj) hss
  · exact h3

/-- One `receive` call preserves the counter invariant (on states satisfying
the reachability fact that an unbound decoder has no metadata). -/
theorem receive_counterInv (st : DecState) (data : List Nat)
    (hun : st.fileId = none → st.metadata = none)
    (hinv : counterInv st) :
    counterInv (receive st data).2 := by
  unfold receive
  cases hp : parsePacket data with
  | none => exact hinv
  | some p =>
    dsimp only
    cases hf : st.fileId with
    | none =>
      have hmn : st.metadata = none := hun hf
      dsimp only
      by_cases hseen : p.symbolId ∈ st.seen
      · rw [if_pos hseen]
        exact counterInv_of_no_metadata _ hmn
      · rw [if_neg hseen]
        by_cases hmeta : p.isMetadata = true ∨ p.symbolId = 0
        · rw [if_pos hmeta]
          cases hm2 : st.metadata with
          | some m0 =>
            rw [hmn] at hm2
            exact absurd hm2 (by simp)
          | none =>
            cases hpm2 : parseMetadataPayload p.payload with
            | error e => exact counterInv_of_no_metadata _ rfl
            | ok m2 => exact acceptMetadata_counterInv _ m2
        · rw [if_neg hmeta]
          dsimp only
          exact counterInv_propagate_parity _ (counterInv_of_no_metadata _ hmn)
    | some f =>
      dsimp only
      by_cases hff : p.fileId ≠ f
      · rw [if_pos hff]
        exact hinv
      · rw [if_neg hff]
        dsimp only
        by_cases hseen : p.symbolId ∈ st.seen
        · rw [if_pos hseen]
          exact hinv
        · rw [if_neg hseen]
          by_cases hmeta : p.isMetadata = true ∨ p.symbolId = 0
          · rw [if_pos hmeta]
            cases hm2 : st.metadata with
            | some m0 => exact counterInv_congr st _ hm2.symm rfl rfl rfl rfl hinv
            | none =>
              cases hpm2 : parseMetadataPayload p.payload with
              | error e => exact counterInv_of_no_metadata _ rfl
              | ok m2 => exact acceptMetadata_counterInv _ m2
          · rw [if_neg hmeta]
            dsimp only
            exact counterInv_propagate_parity _
              (counterInv_congr st _ rfl rfl rfl rfl rfl hinv)

/-- Projections of `acceptMetadata` it does not modify. -/
theorem acceptMetadata_fileId (s : DecState) (m : Meta) :
    (acceptMetadata s m).fileId = s.fileId := rfl

/-- The data-packet tail of `receive` does not touch the session binding. -/
theorem dataTail_fileId (s : DecState) :
    (if (propagate s).isComplete = false ∧ (propagate s).parityMap.isSome
     then parityRecovery (propagate s) else propagate s).fileId = s.fileId := by
  split
  · rw [parityRecovery_fileId, propagate_fileId]
  · rw [propagate_fileId]

/-- The only reachable-shape state `receive` can leave with an unbound
session is the input state itself: every binding branch sets `fileId`. -/
theorem receive_fileId_none (st : DecState) (data : List Nat)
    (h : (receive st data).2.fileId = none) : (receive st data).2 = st := by
  revert h
  unfold receive
  cases hp : parsePacket data with
  | none => intro h; rfl
  | some p =>
    dsimp only
    cases hf : st.fileId with
    | none =>
      dsimp only
      by_cases hseen : p.symbolId ∈ st.seen
      · rw [if_pos hseen]
        intro h
        exact absurd h (by simp)
      · rw [if_neg hseen]
        by_cases hmeta : p.isMetadata = true ∨ p.symbolId = 0
        · rw [if_pos hmeta]
          cases hm2 : st.metadata with
          | some m0 =>
            intro h
            exact absurd h (by simp)
          | none =>
            cases hpm2 : parseMetadataPayload p.payload with
            | error e =>
              intro h
              exact absurd h (by simp)
            | ok m2 =>
              intro h
              have h2 : (some p.fileId : Option Nat) = none := h
              exact Option.noConfusion h2
        · rw [if_neg hmeta]
          dsimp only
          intro h
          rw [dataTail_fileId] at h
          have h2 : (some p.fileId : Option Nat) = none := h
          exact Option.noConfusion h2
    | some f =>
      dsimp only
      by_cases hff : p.fileId ≠ f
      · rw [if_pos hff]
        intro h
        rfl
      · rw [if_neg hff]
        dsimp only
        by_cases hseen : p.symbolId ∈ st.seen
        · rw [if_pos hseen]
          intro h
          rfl
        · rw [if_neg hseen]
          by_cases hmeta : p.isMetadata = true ∨ p.symbolId = 0
          · rw [if_pos hmeta]
            cases hm2 : st.metadata with
            | some m0 =>
              intro h
              have h2 : st.fileId = none := h
              rw [hf] at h2
              exact Option.noConfusion h2
            | none =>
              cases hpm2 : parseMetadataPayload p.payload with
              | error e =>
                intro h
                have h2 : st.fileId = none := h
                rw [hf] at h2
                exact Option.noConfusion h2
              | ok m2 =>
                intro h
                have h2 : st.fileId = none := h
                rw [hf] at h2
                exact Option.noConfusion h2
          · rw [if_neg hmeta]
            dsimp only
            intro h
            rw [dataTail_fileId] at h
            have h2 : st.fileId = none := h
            rw [hf] at h2
            exact Option.noConfusion h2


/-- Folding `receive` from any state that satisfies the counter invariant and
the unbound-no-metadata reachability fact keeps both. -/
theorem foldl_receive_counterInv (pkts : List (List Nat)) :
    ∀ st : DecState, (st.fileId = none → st.metadata = none) → counterInv st →
      counterInv (pkts.foldl (fun s d => (receive s d).2) st) := by
  induction pkts with
  | nil =>
    intro st h1 h2
    exact h2
  | cons d rest ih =>
    intro st h1 h2
    simp only [List.foldl_cons]
    refine ih _ (fun hfn => ?_) (receive_counterInv st d h1 h2)
    have he := receive_fileId_none st d hfn
    rw [he]
    exact h1 (by rw [he] at hfn; exact hfn)

/-- The count below `k` reaches `k` exactly when every index below `k` is
decoded. -/
theorem solvedBelow_eq_iff (k : Nat) (bl : List (Option Block)) :
    solvedBelow k bl = k ↔ ∀ i, i < k → (jsGet bl i).isSome = true := by
  unfold solvedBelow
  constructor
  · intro h i hi
    by_contra hno
    have hlt : ((List.range k).filter (fun i => (jsGet bl i).isSome)).length
        < (List.range k).length := by
      rw [List.length_filter_lt_length_iff_exists]
      exact ⟨i, List.mem_range.mpr hi, by simpa using hno⟩
    rw [h, List.length_range] at hlt
    omega
  · intro hall
    have heq : (List.range k).filter (fun i => (jsGet bl i).isSome) = List.range k :=
      List.filter_eq_self.mpr (fun i hi => hall i (List.mem_range.mp hi))
    rw [heq, List.length_range]

set_option maxRecDepth 100000 in
/-- C10: counter consistency.  In every run of the decoder, once the
metadata packet has been accepted (`metadata` is set), `K` holds the
metadata's source-block count, and after every `receive` call `solvedSource`
equals the number of decoded entries among block indices `0 … K-1` (the
propagation increment is guarded by `idx < K` and parity recovery only ever
assigns indices named by the parity map, all below `K`, `parityMap_mem_lt`);
hence `isComplete()` holds exactly when all `K` source blocks are decoded. -/
theorem c10_counter_consistency (pkts : List (List Nat)) (m : Meta)
    (hm : (runDecoder pkts).metadata = some m) :
    (runDecoder pkts).K = some m.K ∧
    (runDecoder pkts).solvedSource = solvedBelow m.K (runDecoder pkts).blocks ∧
    ((runDecoder pkts).isComplete = true ↔
      ∀ i, i < m.K → (jsGet (runDecoder pkts).blocks i).isSome = true) := by
  have hinv : counterInv (runDecoder pkts) :=
    foldl_receive_counterInv pkts initDecoder (fun _ => rfl)
      (fun m2 hm2 => absurd hm2 (by simp [initDecoder]))
  obtain ⟨h1, h2, h3⟩ := hinv m hm
  refine ⟨h1, h3, ?_⟩
  unfold DecState.isComplete
  simp only [h1, decide_eq_true_eq]
  rw [h3]
  exact solvedBelow_eq_iff m.K _

set_option maxRecDepth 1000000 in
/-- Witness for C10 on a one-packet run that accepts the `K = 3` metadata
packet of session 7. -/
theorem c10_counter_consistency_witness :
    (runDecoder [m3Pkt]).K = some 3 ∧
    ((runDecoder [m3Pkt]).isComplete = true ↔
      ∀ i, i < 3 → (jsGet (runDecoder [m3Pkt]).blocks i).isSome = true) := by
  have h := c10_counter_consistency [m3Pkt]
    ⟨[], [], 450, hash32, 3, 0⟩ (by decide)
  exact ⟨h.1, h.2.2⟩

/-! ### C5 -/

/-- `ceil(sqrt(K))` is at most `K + 1` (the filtered candidate list lives in
`0 … K+1` and the fallback is `K`). -/
theorem ceilSqrt_lt_add_two (K : Nat) : ceilSqrt K < K + 2 := by
  unfold ceilSqrt
  cases hl : (List.range (K + 2)).filter (fun g => decide (K ≤ g * g)) with
  | nil => simp
  | cons a t =>
    have ha : a ∈ (List.range (K + 2)).filter (fun g => decide (K ≤ g * g)) := by
      rw [hl]
      exact List.mem_cons_self a t
    have := List.mem_range.mp (List.mem_filter.mp ha).1
    simpa [List.headD] using this

/-- A duplicate-free list of naturals below `n` has at most `n` elements. -/
theorem length_le_of_nodup_lt (l : List Nat) (hl : l.Nodup) (n : Nat)
    (h : ∀ x ∈ l, x < n) : l.length ≤ n := by
  classical
  have hsub : l.toFinset ⊆ Finset.range n := by
    intro x hx
    exact Finset.mem_range.mpr (h x (List.mem_toFinset.mp hx))
  have hcard := Finset.card_le_card hsub
  rw [List.toFinset_card_of_nodup hl, Finset.card_range] at hcard
  exact hcard

/-- The parity map for `G = ceil(sqrt(K))` has at most `3G` groups (one per
surviving loop index of each of the three layers), so the canonical
`K′ = K + |parityMap|` never exceeds the encoder's `K + 3G` estimate. -/
theorem parityMap_length_le (K : Nat) :
    (generateParityMap K (ceilSqrt K)).length ≤ 3 * ceilSqrt K := by
  cases hK : K with
  | zero => decide
  | succ k =>
    rw [← hK]
    have hK1 : 1 ≤ K := by omega
    have hG1 : 1 ≤ ceilSqrt K := ceilSqrt_pos K hK1
    have hGG : K ≤ ceilSqrt K * ceilSqrt K := ceilSqrt_spec K
    set G := ceilSqrt K with hGdef
    have h1 : (parityLayer1 K G).length ≤ G := by
      unfold parityLayer1
      rw [List.length_map]
      refine length_le_of_nodup_lt _ ((List.nodup_range K).filter _) G ?_
      intro i hi
      have hcond := (List.mem_filter.mp hi).2
      have hiG : i * G < K := by simpa using hcond
      by_contra hc
      push_neg at hc
      have : G * G ≤ i * G := Nat.mul_le_mul_right G hc
      omega
    have h2 : (parityLayer2 K G).length ≤ G := by
      unfold parityLayer2
      refine Nat.le_trans (List.length_filterMap_le _ _) ?_
      refine length_le_of_nodup_lt _ ((List.nodup_range K).filter _) G ?_
      intro i hi
      have hcond := (List.mem_filter.mp hi).2
      have hiG : G / 2 + i * G < K := by simpa using hcond
      by_contra hc
      push_neg at hc
      have : G * G ≤ i * G := Nat.mul_le_mul_right G hc
      omega
    have h3 : (parityLayer3 K G).length ≤ G := by
      unfold parityLayer3
      refine Nat.le_trans (List.length_filterMap_le _ _) ?_
      rw [List.length_range]
      omega
    unfold generateParityMap
    simp only [List.length_append]
    omega

/-- `xorB` keeps the length of its first argument. -/
theorem xorB_length (p q : List Nat) : (xorB p q).length = p.length := by
  induction p generalizing q with
  | nil => cases q <;> rfl
  | cons a as ih =>
    cases q with
    | nil => simpa [xorB] using ih []
    | cons b bs => simpa [xorB] using ih bs

/-- XOR-ing into a fresh zero buffer of matching length returns the block
verbatim. -/
theorem xorB_zero (b : List Nat) (n : Nat) (hb : b.length = n) :
    xorB (List.replicate n 0) b = b := by
  induction b generalizing n with
  | nil =>
    subst hb
    rfl
  | cons x xs ih =>
    subst hb
    simp only [List.length_cons, List.replicate_succ, xorB, Nat.zero_xor]
    rw [ih xs.length rfl, show Nat.xor 0 x = x from Nat.zero_xor x]

/-- XOR of byte values stays a byte value. -/
theorem xorB_bytes (p q : List Nat) (hp : ∀ x ∈ p, x < 256) (hq : ∀ x ∈ q, x < 256) :
    ∀ x ∈ xorB p q, x < 256 := by
  induction p generalizing q with
  | nil => intro x hx; cases hx
  | cons a as ih =>
    cases q with
    | nil =>
      intro x hx
      rcases List.mem_cons.mp hx with heq | hx2
      · rw [heq]
        exact hp a (List.mem_cons_self a as)
      · exact ih [] (fun y hy => hp y (List.mem_cons_of_mem a hy)) (by intro y hy; cases hy) x hx2
    | cons b bs =>
      intro x hx
      rcases List.mem_cons.mp hx with heq | hx2
      · have ha := hp a (List.mem_cons_self a as)
        have hb := hq b (List.mem_cons_self b bs)
        rw [heq]
        calc Nat.xor a b < 2 ^ 8 := Nat.xor_lt_two_pow ha hb
        _ = 256 := by norm_num
      · exact ih bs (fun y hy => hp y (List.mem_cons_of_mem a hy))
          (fun y hy => hq y (List.mem_cons_of_mem b hy)) x hx2

/-- Reading any index of an all-`null` block array gives `undefined`. -/
theorem jsGet_replicate_none (n i : Nat) :
    jsGet (List.replicate n (none : Option Block)) i = none := by
  rw [jsGet_eq]
  by_cases hi : i < n
  · rw [List.getElem?_replicate]
    simp [hi]
  · rw [List.getElem?_eq_none (by simpa using Nat.le_of_not_lt hi)]
    rfl

/-- The propagation loop is the identity on an empty pending list. -/
theorem propagateLoop_nil (K : Option Nat) (fuel : Nat) (st : Store) :
    propagateLoop K fuel [] st = ([], st) := by
  cases fuel with
  | zero => rfl
  | succ f => simp [propagateLoop, propagateOnce]

/-- The parity-recovery loop never creates pending constraints when there are
none. -/
theorem parityRecoveryLoop_pending_nil (Kv : Nat) (pm : List (List Nat)) :
    ∀ (fuel : Nat) (st : Store), (parityRecoveryLoop Kv pm fuel [] st).1 = [] := by
  intro fuel
  induction fuel with
  | zero => intro st; rfl
  | succ f ih =>
    intro st
    simp only [parityRecoveryLoop]
    cases hc : (parityOnce Kv pm 0 st).2 with
    | false => simp
    | true =>
      simp only [if_true]
      rw [show ([] : List Constraint).length + 1 = 1 from rfl, propagateLoop_nil]
      exact ih _

/-- Parsing the canonical metadata layout
`[fnLen] ++ fn ++ [miLen] ++ mi ++ be32(fs) ++ hash32 ++ be32(K) ++ mode ++ …`
recovers the fields regardless of any trailing bytes (the mode byte is masked
to its low two bits), which covers both the exact record and the encoder's
zero-padded `BLOCK_SIZE` metadata payload. -/
theorem parseMetadata_canonical (fn mi : List Nat) (fs : Nat) (h : List Nat) (K mode : Nat)
    (tl : List Nat) (hfs : fs < 2 ^ 32) (hh1 : h.length = 32) (hK : K < 2 ^ 32) :
    parseMetadataPayload (fn.length :: (fn ++ (mi.length ::
      (mi ++ (be32bytes fs ++ (h ++ (be32bytes K ++ (mode :: tl)))))))) =
      .ok ⟨fn, mi, fs, h, K, mode % 4⟩ := by
  have h1 : (fn.length :: (fn ++ (mi.length ::
      (mi ++ (be32bytes fs ++ (h ++ (be32bytes K ++ (mode :: tl)))))))).get? 0
      = some fn.length := rfl
  have h2 : ((fn.length :: (fn ++ (mi.length ::
      (mi ++ (be32bytes fs ++ (h ++ (be32bytes K ++ (mode :: tl)))))))).drop 1).take fn.length
      = fn := by
    rw [List.drop_succ_cons, List.drop_zero, List.take_left]
  have hd : ∀ k, (fn.length :: (fn ++ (mi.length ::
      (mi ++ (be32bytes fs ++ (h ++ (be32bytes K ++ (mode :: tl)))))))).drop (1 + fn.length + k)
      = (mi.length :: (mi ++ (be32bytes fs ++ (h ++ (be32bytes K ++ (mode :: tl)))))).drop k :=
    fun k => drop_cons_append _ _ _ k
  have h3 : (fn.length :: (fn ++ (mi.length ::
      (mi ++ (be32bytes fs ++ (h ++ (be32bytes K ++ (mode :: tl)))))))).get? (1 + fn.length)
      = some mi.length := by
    rw [get?_eq_head_drop, show 1 + fn.length = 1 + fn.length + 0 from by omega, hd 0]
    rfl
  have h4 : ((fn.length :: (fn ++ (mi.length ::
      (mi ++ (be32bytes fs ++ (h ++ (be32bytes K ++ (mode :: tl)))))))).drop
        (1 + fn.length + 1)).take mi.length = mi := by
    rw [hd 1, List.drop_succ_cons, List.drop_zero, List.take_left]
  have hZ : ∀ k, (fn.length :: (fn ++ (mi.length ::
      (mi ++ (be32bytes fs ++ (h ++ (be32bytes K ++ (mode :: tl)))))))).drop
        (1 + fn.length + 1 + mi.length + k)
      = (be32bytes fs ++ (h ++ (be32bytes K ++ (mode :: tl)))).drop k := by
    intro k
    rw [show 1 + fn.length + 1 + mi.length + k = 1 + fn.length + (1 + mi.length + k) from by
      omega, hd (1 + mi.length + k), drop_cons_append]
  have h5 : readU32 ((fn.length :: (fn ++ (mi.length ::
      (mi ++ (be32bytes fs ++ (h ++ (be32bytes K ++ (mode :: tl)))))))).drop
        (1 + fn.length + 1 + mi.length)) = fs := by
    rw [show 1 + fn.length + 1 + mi.length = 1 + fn.length + 1 + mi.length + 0 from by omega,
      hZ 0, List.drop_zero, readU32_be32 fs _ hfs]
  have h6 : ((fn.length :: (fn ++ (mi.length ::
      (mi ++ (be32bytes fs ++ (h ++ (be32bytes K ++ (mode :: tl)))))))).drop
        (1 + fn.length + 1 + mi.length + 4)).take 32 = h := by
    rw [hZ 4, show (4 : Nat) = (be32bytes fs).length from rfl, List.drop_left, ← hh1,
      List.take_left]
  have h7 : readU32 ((fn.length :: (fn ++ (mi.length ::
      (mi ++ (be32bytes fs ++ (h ++ (be32bytes K ++ (mode :: tl)))))))).drop
        (1 + fn.length + 1 + mi.length + 4 + 32)) = K := by
    rw [show 1 + fn.length + 1 + mi.length + 4 + 32
        = 1 + fn.length + 1 + mi.length + (4 + 32) from by omega, hZ (4 + 32),
      show (4 + 32 : Nat) = (be32bytes fs).length + 32 from rfl, List.drop_append 32,
      ← hh1, List.drop_left, readU32_be32 K _ hK]
  have h8 : (fn.length :: (fn ++ (mi.length ::
      (mi ++ (be32bytes fs ++ (h ++ (be32bytes K ++ (mode :: tl)))))))).get?
        (1 + fn.length + 1 + mi.length + 4 + 32 + 4) = some mode := by
    rw [get?_eq_head_drop,
      show 1 + fn.length + 1 + mi.length + 4 + 32 + 4
        = 1 + fn.length + 1 + mi.length + (4 + (32 + 4)) from by omega, hZ (4 + (32 + 4)),
      show (4 + (32 + 4) : Nat) = (be32bytes fs).length + (32 + 4) from rfl,
      List.drop_append (32 + 4), show (32 + 4 : Nat) = h.length + 4 from by omega,
      List.drop_append 4, show (4 : Nat) = (be32bytes K).length + 0 from rfl,
      List.drop_append 0]
    rfl
  have hlen : (fn.length :: (fn ++ (mi.length ::
      (mi ++ (be32bytes fs ++ (h ++ (be32bytes K ++ (mode :: tl)))))))).length
      = 43 + fn.length + mi.length + tl.length := by
    simp [be32bytes, hh1]
    omega
  unfold parseMetadataPayload
  rw [h1]
  simp only
  rw [h3]
  simp only
  rw [hlen, if_pos (by omega), h5, if_pos (by omega), h7, h8, h2, h4, h6]

/-- The four big-endian bytes are byte values. -/
theorem be32bytes_bytes (v : Nat) : ∀ x ∈ be32bytes v, x < 256 := by
  intro x hx
  unfold be32bytes at hx
  simp only [List.mem_cons, List.not_mem_nil, or_false] at hx
  rcases hx with h | h | h | h <;> omega

/-- Every byte of a successfully created metadata record is a byte value
(length bytes are capped at 255 by the `take`, data bytes are stored `% 256`,
header fields are big-endian bytes, the mode byte is masked). -/
theorem createMetadataPayload_bytes (fn mi : List Nat) (fs : Nat) (h : List Nat)
    (K mode : Nat) (raw : List Nat)
    (hc : createMetadataPayload fn mi fs h K mode = .ok raw) :
    ∀ x ∈ raw, x < 256 := by
  unfold createMetadataPayload at hc
  split at hc
  · exact absurd hc (by simp)
  · have hraw := Except.ok.inj hc
    intro x hx
    rw [← hraw] at hx
    rcases List.mem_append.mp hx with hx | hx
    · rcases List.mem_append.mp hx with hx | hx
      · rcases List.mem_append.mp hx with hx | hx
        · rcases List.mem_append.mp hx with hx | hx
          · rcases List.mem_append.mp hx with hx | hx
            · rcases List.mem_append.mp hx with hx | hx
              · rcases List.mem_append.mp hx with hx | hx
                · have hxe : x = ((fn.take 255).map (· % 256)).length :=
                    List.mem_singleton.mp hx
                  rw [hxe, List.length_map, List.length_take]
                  omega
                · obtain ⟨y, _, hxe⟩ := List.mem_map.mp hx
                  omega
              · have hxe : x = ((mi.take 255).map (· % 256)).length :=
                  List.mem_singleton.mp hx
                rw [hxe, List.length_map, List.length_take]
                omega
            · obtain ⟨y, _, hxe⟩ := List.mem_map.mp hx
              omega
          · exact be32bytes_bytes fs x hx
        · have hx2 := List.mem_of_mem_take hx
          rcases List.mem_append.mp hx2 with hx3 | hx3
          · obtain ⟨y, _, hxe⟩ := List.mem_map.mp hx3
            omega
          · have hxe := List.eq_of_mem_replicate hx3
            omega
      · exact be32bytes_bytes K x hx
    · have hxe : x = mode % 4 := List.mem_singleton.mp hx
      omega

/-- Every parity block XOR-accumulated over byte blocks of length 200 is a
byte block of length 200. -/
theorem generateParityBlocks_spec (sb : List (List Nat)) (pm : List (List Nat))
    (hsb : ∀ b ∈ sb, b.length = 200 ∧ ∀ x ∈ b, x < 256) :
    ∀ b ∈ generateParityBlocks sb pm, b.length = 200 ∧ ∀ x ∈ b, x < 256 := by
  intro b hb
  obtain ⟨g, hg, hbg⟩ := List.mem_map.mp hb
  have hfold : ∀ (gl : List Nat) (acc : List Nat), acc.length = 200 → (∀ x ∈ acc, x < 256) →
      (gl.foldl (fun acc idx => xorB acc (sb.getD idx [])) acc).length = 200 ∧
      ∀ x ∈ gl.foldl (fun acc idx => xorB acc (sb.getD idx [])) acc, x < 256 := by
    intro gl
    induction gl with
    | nil =>
      intro acc ha1 ha2
      exact ⟨ha1, ha2⟩
    | cons i rest ih =>
      intro acc ha1 ha2
      simp only [List.foldl_cons]
      have hq : ∀ x ∈ sb.getD i [], x < 256 := by
        rw [List.getD_eq_getElem?_getD]
        cases hgi : sb[i]? with
        | none =>
          intro x hx
          exact absurd hx (List.not_mem_nil x)
        | some b2 =>
          have hlt : i < sb.length := by
            by_contra hc
            rw [List.getElem?_eq_none (by omega)] at hgi
            exact Option.noConfusion hgi
          have hmem : b2 ∈ sb := by
            have hgg : sb[i]? = some sb[i] := List.getElem?_eq_getElem hlt
            rw [hgg] at hgi
            rw [← Option.some.inj hgi]
            exact List.getElem_mem hlt
          exact (hsb b2 hmem).2
      exact ih _ (by rw [xorB_length]; exact ha1) (xorB_bytes _ _ ha2 hq)
  rw [← hbg]
  exact hfold g _ (by rw [List.length_replicate])
    (by intro x hx; rw [List.eq_of_mem_replicate hx]; omega)

/-- Structure of a successfully staged encoder: the derived parameters, the
intermediate block array (one 200-byte block per source slice and one per
parity group), and the zero-padded metadata payload. -/
theorem createEncoder_fields (fileData filename mimeType hash : List Nat) (fid : Nat)
    (e : Encoder) (he : createEncoder fileData filename mimeType hash fid = .ok e) :
    e.fileId = fid ∧
    e.K = (fileData.length + 199) / 200 ∧
    e.K_prime = e.K + 3 * ceilSqrt e.K ∧
    e.intermediateBlocks.length = e.K + (generateParityMap e.K (ceilSqrt e.K)).length ∧
    (∀ b ∈ e.intermediateBlocks, b.length = 200 ∧ ∀ x ∈ b, x < 256) ∧
    ∃ raw, createMetadataPayload filename mimeType fileData.length hash e.K 0 = .ok raw ∧
      raw.length ≤ 200 ∧ e.metadataPayload = raw ++ List.replicate (200 - raw.length) 0 := by
  unfold createEncoder at he
  dsimp only at he
  have hKeq : (fileData.length + 199) / 200 * 200 / 200 = (fileData.length + 199) / 200 := by
    omega
  rw [hKeq] at he
  cases hmp : createMetadataPayload filename mimeType fileData.length hash
      ((fileData.length + 199) / 200) 0 with
  | error u =>
    rw [hmp] at he
    exact absurd he (by simp)
  | ok raw =>
    rw [hmp] at he
    simp only at he
    split at he
    · exact absurd he (by simp)
    · next hr =>
      have he2 := (Except.ok.inj he).symm
      have hpadlen : ((fileData.map (· % 256)) ++
          List.replicate ((fileData.length + 199) / 200 * 200 - fileData.length) 0).length
          = (fileData.length + 199) / 200 * 200 := by
        simp
        omega
      have hsbspec : ∀ b ∈ (List.range ((fileData.length + 199) / 200)).map
          (fun i => ((((fileData.map (· % 256)) ++
            List.replicate ((fileData.length + 199) / 200 * 200 - fileData.length) 0)).drop
              (i * 200)).take 200),
          b.length = 200 ∧ ∀ x ∈ b, x < 256 := by
        intro b hb
        obtain ⟨i, hi, hbe⟩ := List.mem_map.mp hb
        have hiK := List.mem_range.mp hi
        constructor
        · rw [← hbe, List.length_take, List.length_drop, hpadlen]
          have : i * 200 + 200 ≤ (fileData.length + 199) / 200 * 200 := by
            have : (i + 1) * 200 ≤ (fileData.length + 199) / 200 * 200 :=
              Nat.mul_le_mul_right 200 hiK
            omega
          omega
        · intro x hx
          rw [← hbe] at hx
          have hx2 := List.mem_of_mem_drop (List.mem_of_mem_take hx)
          rcases List.mem_append.mp hx2 with hx3 | hx3
          · obtain ⟨y, _, hxe⟩ := List.mem_map.mp hx3
            omega
          · rw [List.eq_of_mem_replicate hx3]
            omega
      refine ⟨by rw [he2], by rw [he2], ?_, ?_, ?_, raw, by rw [he2]; exact hmp,
        by omega, by rw [he2]⟩
      · rw [he2]
        dsimp only [calculateParityParams]
      · rw [he2]
        dsimp only [calculateParityParams]
        unfold generateParityBlocks
        simp only [List.length_append, List.length_map, List.length_range]
      · rw [he2]
        dsimp only [calculateParityParams]
        intro b hb
        rcases List.mem_append.mp hb with hb1 | hb2
        · exact hsbspec b hb1
        · exact generateParityBlocks_spec _ _ hsbspec b hb2

/-- For a systematic symbol id (at most the number of intermediate blocks,
which never exceeds the encoder's advertised `K′`), `generateSymbol` picks
the single neighbour `(id − 1) % K′ = id − 1` and emits the intermediate
block itself, XOR-ed into a fresh zero buffer, i.e. verbatim. -/
theorem generateSymbol_systematic (e : Encoder) (id : Nat) (b : Block)
    (hid1 : 1 ≤ id) (hid2 : id ≤ e.intermediateBlocks.length)
    (hle : e.intermediateBlocks.length ≤ e.K_prime)
    (hb : e.intermediateBlocks.get? (id - 1) = some b) (hbl : b.length = 200) :
    symbolIndices e.fileId e.K_prime id = [(id - 1) % e.K_prime] ∧
    (id - 1) % e.K_prime = id - 1 ∧
    generateSymbol e id = some (createPacket e.fileId e.K_prime id b false 200 0 0) := by
  have hsys : id ≤ e.K_prime := le_trans hid2 hle
  have hmod : (id - 1) % e.K_prime = id - 1 := Nat.mod_eq_of_lt (by omega)
  have hidx : symbolIndices e.fileId e.K_prime id = [id - 1] := by
    unfold symbolIndices
    rw [if_pos hsys, hmod]
  have hxor : xorBlocks e.intermediateBlocks [id - 1] = some b := by
    unfold xorBlocks
    simp only [List.foldl_cons, List.foldl_nil, Option.some_bind]
    simp only [hb]
    rw [xorB_zero b 200 hbl]
  refine ⟨by rw [hidx, hmod], hmod, ?_⟩
  unfold generateSymbol
  rw [if_neg (by omega), hidx]
  simp only [hxor]

/-- The decoder state after the metadata packet has bound the session: the
canonical parameters, an all-`null` block array of the canonical `K′` size,
and no pending constraints. -/
def metaState (f K kp G : Nat) (pm : List (List Nat)) (m : Meta)
    (bl : List (Option Block)) (sv ssv : Nat) (seen : Finset Nat) : DecState :=
  ⟨some f, some K, some kp, some G, some pm, some m, 200, bl, sv, ssv, seen, []⟩

/-- Receiving a metadata packet on the fresh decoder binds the session and
accepts the metadata: the result is the canonical post-metadata state with an
all-`null` block array of the canonical `K′ = K + |parityMap|` length
(whether or not the header's `K′` required a reallocation). -/
theorem receive_metadata_init (f hkenc : Nat) (mdp : List Nat) (m : Meta)
    (hf : f < 2 ^ 32) (hhk : hkenc < 2 ^ 32)
    (hparse : parseMetadataPayload (mdp.map (· % 256)) = .ok m) :
    (receive initDecoder (createPacket f hkenc 0 mdp true 200 0 0)).2 =
      metaState f m.K (m.K + (generateParityMap m.K (ceilSqrt m.K)).length) (ceilSqrt m.K)
        (generateParityMap m.K (ceilSqrt m.K)) m
        (List.replicate (m.K + (generateParityMap m.K (ceilSqrt m.K)).length) none)
        0 0 (insert 0 ∅) := by
  unfold receive
  rw [parsePacket_createPacket f hkenc 0 mdp true 200 0 0 hf hhk (by omega) (by decide)]
  dsimp only [initDecoder]
  rw [if_neg (Finset.not_mem_empty 0)]
  rw [if_pos (Or.inl rfl)]
  rw [hparse]
  dsimp only [acceptMetadata]
  set nk := m.K + (generateParityMap m.K (ceilSqrt m.K)).length with hnkdef
  have hball : (if some hkenc ≠ some nk then
      (List.range nk).map (fun i => jsGet (List.replicate hkenc none) i)
      else List.replicate hkenc (none : Option Block)) = List.replicate nk none := by
    split
    · have h1 : (List.range nk).map (fun i => jsGet (List.replicate hkenc none) i)
          = (List.range nk).map (fun _ => (none : Option Block)) :=
        List.map_congr_left (fun i _ => jsGet_replicate_none hkenc i)
      rw [h1, List.map_const', List.length_range]
    · next hcond =>
      have he : hkenc = nk := Option.some.inj (not_ne_iff.mp hcond)
      rw [he]
  rw [hball]
  have hc1 : ((List.range nk).filter
      (fun i => (jsGet (List.replicate nk (none : Option Block)) i).isSome)).length = 0 := by
    have hnil : (List.range nk).filter
        (fun i => (jsGet (List.replicate nk (none : Option Block)) i).isSome) = [] :=
      List.filter_eq_nil_iff.mpr (fun a _ => by rw [jsGet_replicate_none]; simp)
    rw [hnil]
    rfl
  have hc2 : ((List.range nk).filter
      (fun i => (jsGet (List.replicate nk (none : Option Block)) i).isSome
        && decide (i < m.K))).length = 0 := by
    have hnil : (List.range nk).filter
        (fun i => (jsGet (List.replicate nk (none : Option Block)) i).isSome
          && decide (i < m.K)) = [] :=
      List.filter_eq_nil_iff.mpr (fun a _ => by rw [jsGet_replicate_none]; simp)
    rw [hnil]
    rfl
  rw [hc1, hc2]
  rfl

/-- `propagate` on a post-metadata state holding a single degree-1 constraint:
assign the payload if the slot is free, discard otherwise; no pending
constraint remains. -/
theorem propagate_metaState_singleton (f K kp G : Nat) (pm : List (List Nat)) (m : Meta)
    (bl : List (Option Block)) (sv ssv : Nat) (seen : Finset Nat) (idx : Nat) (pl : Block) :
    propagate { metaState f K kp G pm m bl sv ssv seen with
                pending := [(⟨[idx], pl⟩ : Constraint)] } =
      if jsGet bl idx = none then
        metaState f K kp G pm m (jsWrite bl idx pl) (sv + 1)
          (ssv + if idx < K then 1 else 0) seen
      else metaState f K kp G pm m bl sv ssv seen := by
  unfold propagate metaState
  dsimp only
  rw [propagateLoop_singleton]
  cases hg : jsGet bl idx with
  | none =>
    rw [if_pos rfl, if_pos rfl]
  | some known =>
    rw [if_neg (fun hc => Option.noConfusion hc),
      if_neg (fun hc => Option.noConfusion hc)]

/-- `parityRecovery` on a post-metadata state with no pending constraints:
the bookkeeping fields are untouched, no pending constraint appears, and
decoded blocks are only added, never changed. -/
theorem parityRecovery_metaState (f K kp G : Nat) (pm : List (List Nat)) (m : Meta)
    (bl : List (Option Block)) (sv ssv : Nat) (seen : Finset Nat) :
    ∃ bl2 sv2 ssv2,
      parityRecovery (metaState f K kp G pm m bl sv ssv seen) =
        metaState f K kp G pm m bl2 sv2 ssv2 seen ∧
      ∀ j v, jsGet bl j = some v → jsGet bl2 j = some v := by
  unfold parityRecovery metaState
  dsimp only
  by_cases hK0 : K = 0
  · rw [if_pos hK0]
    exact ⟨bl, sv, ssv, rfl, fun j v hv => hv⟩
  · rw [if_neg hK0]
    refine ⟨(parityRecoveryLoop K pm (parityUnknown pm bl + 1) [] ⟨bl, sv, ssv⟩).2.blocks,
      (parityRecoveryLoop K pm (parityUnknown pm bl + 1) [] ⟨bl, sv, ssv⟩).2.solved,
      (parityRecoveryLoop K pm (parityUnknown pm bl + 1) [] ⟨bl, sv, ssv⟩).2.solvedSource,
      ?_, ?_⟩
    · rw [parityRecoveryLoop_pending_nil]
    · intro j v hv
      exact parityRecoveryLoop_store_mono K pm _ [] ⟨bl, sv, ssv⟩ j v hv

/-- One systematic data packet received on a post-metadata state (fresh
symbol id `1 ≤ id ≤ K′`): the session fields are untouched, the id is marked
seen, no pending constraint remains, intermediate block `id − 1` is decoded
afterwards, and previously decoded blocks keep their values. -/
theorem receive_meta_systematic (f hk K kp G : Nat) (pm : List (List Nat)) (m : Meta)
    (bl : List (Option Block)) (sv ssv : Nat) (seen : Finset Nat)
    (id : Nat) (payload : List Nat)
    (hf : f < 2 ^ 32) (hhk : hk < 2 ^ 32) (hid32 : id < 2 ^ 32)
    (hid1 : 1 ≤ id) (hidk : id ≤ kp) (hns : id ∉ seen) :
    ∃ bl2 sv2 ssv2,
      (receive (metaState f K kp G pm m bl sv ssv seen)
        (createPacket f hk id payload false 200 0 0)).2 =
        metaState f K kp G pm m bl2 sv2 ssv2 (insert id seen) ∧
      jsGet bl2 (id - 1) ≠ none ∧
      (∀ j v, jsGet bl j = some v → jsGet bl2 j = some v) := by
  unfold receive
  rw [parsePacket_createPacket f hk id payload false 200 0 0 hf hhk hid32 (by decide)]
  dsimp only [metaState]
  rw [if_neg (show ¬(f ≠ f) from by simp)]
  dsimp only
  rw [if_neg hns]
  rw [if_neg (by simp; omega)]
  dsimp only [Option.getD_some]
  have hidx : symbolIndices f kp id = [id - 1] := by
    unfold symbolIndices
    rw [if_pos hidk, Nat.mod_eq_of_lt (by omega)]
  rw [hidx]
  rw [show ([] : List Constraint) ++ [(⟨[id - 1], payload.map (· % 256)⟩ : Constraint)]
    = [(⟨[id - 1], payload.map (· % 256)⟩ : Constraint)] from rfl]
  rw [show (⟨some f, some K, some kp, some G, some pm, some m, 200, bl, sv, ssv,
      insert id seen, [(⟨[id - 1], payload.map (· % 256)⟩ : Constraint)]⟩ : DecState)
    = { metaState f K kp G pm m bl sv ssv (insert id seen) with
        pending := [(⟨[id - 1], payload.map (· % 256)⟩ : Constraint)] } from rfl]
  rw [propagate_metaState_singleton]
  cases hg : jsGet bl (id - 1) with
  | none =>
    rw [if_pos rfl]
    set dss := (if id - 1 < K then 1 else 0) with hdss
    split
    · obtain ⟨bl2, sv2, ssv2, heq, hmono⟩ := parityRecovery_metaState f K kp G pm m
        (jsWrite bl (id - 1) (payload.map (· % 256))) (sv + 1)
        (ssv + dss) (insert id seen)
      refine ⟨bl2, sv2, ssv2, heq, ?_, ?_⟩
      · have hw : jsGet (jsWrite bl (id - 1) (payload.map (· % 256))) (id - 1)
            = some (payload.map (· % 256)) := by
          rw [jsGet_jsWrite, if_pos rfl]
        rw [hmono (id - 1) _ hw]
        exact fun hc => Option.noConfusion hc
      · intro j v hv
        refine hmono j v ?_
        rw [jsGet_jsWrite]
        split
        · next hji =>
          rw [hji, hg] at hv
          exact absurd hv (fun hc => Option.noConfusion hc)
        · exact hv
    · refine ⟨jsWrite bl (id - 1) (payload.map (· % 256)), sv + 1,
        ssv + dss, rfl, ?_, ?_⟩
      · rw [jsGet_jsWrite, if_pos rfl]
        exact fun hc => Option.noConfusion hc
      · intro j v hv
        rw [jsGet_jsWrite]
        split
        · next hji =>
          rw [hji, hg] at hv
          exact absurd hv (fun hc => Option.noConfusion hc)
        · exact hv
  | some known =>
    rw [if_neg (fun hc => Option.noConfusion hc)]
    split
    · obtain ⟨bl2, sv2, ssv2, heq, hmono⟩ := parityRecovery_metaState f K kp G pm m
        bl sv ssv (insert id seen)
      refine ⟨bl2, sv2, ssv2, heq, ?_, fun j v hv => hmono j v hv⟩
      rw [hmono (id - 1) known hg]
      exact fun hc => Option.noConfusion hc
    · refine ⟨bl, sv, ssv, rfl, ?_, fun j v hv => hv⟩
      rw [hg]
      exact fun hc => Option.noConfusion hc

/-- Folding systematic data packets with fresh, pairwise-distinct symbol ids
in `1 … K′` over a post-metadata state: the session fields survive, decoded
blocks are preserved, and every fed id's intermediate block `id − 1` ends up
decoded. -/
theorem fold_meta_systematic (f hk K kp G : Nat) (pm : List (List Nat)) (m : Meta)
    (hf : f < 2 ^ 32) (hhk : hk < 2 ^ 32) (hkp32 : kp < 2 ^ 32) :
    ∀ (l : List (Nat × List Nat)) (bl : List (Option Block)) (sv ssv : Nat)
      (seen : Finset Nat),
      (∀ q ∈ l, 1 ≤ q.1 ∧ q.1 ≤ kp ∧ q.1 ∉ seen) →
      (l.map Prod.fst).Nodup →
      ∃ bl2 sv2 ssv2 seen2,
        List.foldl (fun s d => (receive s d).2) (metaState f K kp G pm m bl sv ssv seen)
            (l.map fun q => createPacket f hk q.1 q.2 false 200 0 0) =
          metaState f K kp G pm m bl2 sv2 ssv2 seen2 ∧
        (∀ j v, jsGet bl j = some v → jsGet bl2 j = some v) ∧
        (∀ q ∈ l, jsGet bl2 (q.1 - 1) ≠ none) := by
  intro l
  induction l with
  | nil =>
    intro bl sv ssv seen _ _
    exact ⟨bl, sv, ssv, seen, rfl, fun j v hv => hv, fun q hq => absurd hq (List.not_mem_nil q)⟩
  | cons q rest ih =>
    intro bl sv ssv seen hrange hnodup
    have hq := hrange q (List.mem_cons_self q rest)
    obtain ⟨bl1, sv1, ssv1, hstep, hass, hmono⟩ := receive_meta_systematic f hk K kp G pm m
      bl sv ssv seen q.1 q.2 hf hhk (by omega) hq.1 hq.2.1 hq.2.2
    simp only [List.map_cons, List.foldl_cons]
    rw [hstep]
    have hrest : ∀ p ∈ rest, 1 ≤ p.1 ∧ p.1 ≤ kp ∧ p.1 ∉ insert q.1 seen := by
      intro p hp
      have hpr := hrange p (List.mem_cons_of_mem q hp)
      refine ⟨hpr.1, hpr.2.1, ?_⟩
      intro hmem
      rcases Finset.mem_insert.mp hmem with heq | hmem2
      · have : q.1 ∈ rest.map Prod.fst := heq ▸ List.mem_map_of_mem Prod.fst hp
        exact (List.nodup_cons.mp hnodup).1 (by simpa using this)
      · exact hpr.2.2 hmem2
    obtain ⟨bl2, sv2, ssv2, seen2, hfold, hmono2, hass2⟩ :=
      ih bl1 sv1 ssv1 (insert q.1 seen) hrest (List.nodup_cons.mp hnodup).2
    refine ⟨bl2, sv2, ssv2, seen2, hfold, ?_, ?_⟩
    · intro j v hv
      exact hmono2 j v (hmono j v hv)
    · intro p hp
      rcases List.mem_cons.mp hp with heq | hp2
      · rw [heq]
        cases hx : jsGet bl1 (q.1 - 1) with
        | none => exact absurd hx hass
        | some v =>
          rw [hmono2 (q.1 - 1) v hx]
          exact fun hc => Option.noConfusion hc
      · exact hass2 p hp2

set_option maxRecDepth 100000 in
/-- C5 (amended): for every symbol id `1 ≤ id ≤ K′can` with the canonical
`K′can = K + |parityMap|`, the neighbour set is the single intermediate index
`(id − 1) mod K′` on both ends — computed against the encoder's advertised
`K′ = K + 3⌈√K⌉` on the encoder and against the canonical `K′can` on the
post-metadata decoder, both reducing to `id − 1` — the encoder emits
intermediate block `id − 1` verbatim, and a decoder that receives the
metadata packet plus symbols `1 … K′can` without loss reaches
`isComplete() = true`.  (The claim's plan of sending ids `1 … K′` with the
encoder's own `K′` is impossible whenever `|parityMap| < 3⌈√K⌉`:
`c5_claim_counterexample` shows the encoder throws on such ids.) -/
theorem c5_systematic_transmission (fileData filename mimeType hash : List Nat)
    (fid : Nat) (e : Encoder)
    (he : createEncoder fileData filename mimeType hash fid = .ok e)
    (hfid : fid < 2 ^ 32) (hlen1 : 1 ≤ fileData.length)
    (hlen2 : fileData.length ≤ 20971520) :
    (∀ id, 1 ≤ id → id ≤ e.K + (generateParityMap e.K (ceilSqrt e.K)).length →
      symbolIndices e.fileId e.K_prime id = [(id - 1) % e.K_prime] ∧
      symbolIndices e.fileId (e.K + (generateParityMap e.K (ceilSqrt e.K)).length) id =
        [(id - 1) % (e.K + (generateParityMap e.K (ceilSqrt e.K)).length)] ∧
      ∃ b, e.intermediateBlocks.get? (id - 1) = some b ∧
        generateSymbol e id = some (createPacket e.fileId e.K_prime id b false 200 0 0)) ∧
    (runDecoder ((List.range (e.K + (generateParityMap e.K (ceilSqrt e.K)).length + 1)).map
      (fun id => (generateSymbol e id).getD []))).isComplete = true := by
  obtain ⟨hfid2, hKval, hKp, hiblen, hibspec, raw, hmp, hrawlen, hmdp⟩ :=
    createEncoder_fields fileData filename mimeType hash fid e he
  have hK1 : 1 ≤ e.K := by rw [hKval]; omega
  have hK2 : e.K ≤ 104858 := by rw [hKval]; omega
  have hG1 := ceilSqrt_pos e.K hK1
  have hG2 := ceilSqrt_lt_add_two e.K
  have hpml := parityMap_length_le e.K
  have hkple : e.K + (generateParityMap e.K (ceilSqrt e.K)).length ≤ e.K_prime := by
    rw [hKp]; omega
  have hkp32 : e.K + (generateParityMap e.K (ceilSqrt e.K)).length < 2 ^ 32 := by omega
  have hKp32 : e.K_prime < 2 ^ 32 := by rw [hKp]; omega
  have hf32 : e.fileId < 2 ^ 32 := by rw [hfid2]; exact hfid
  have hpart1 : ∀ id, 1 ≤ id → id ≤ e.K + (generateParityMap e.K (ceilSqrt e.K)).length →
      symbolIndices e.fileId e.K_prime id = [(id - 1) % e.K_prime] ∧
      symbolIndices e.fileId (e.K + (generateParityMap e.K (ceilSqrt e.K)).length) id =
        [(id - 1) % (e.K + (generateParityMap e.K (ceilSqrt e.K)).length)] ∧
      ∃ b, e.intermediateBlocks.get? (id - 1) = some b ∧
        generateSymbol e id = some (createPacket e.fileId e.K_prime id b false 200 0 0) := by
    intro id h1 h2
    have hid2 : id ≤ e.intermediateBlocks.length := by rw [hiblen]; exact h2
    have hle : e.intermediateBlocks.length ≤ e.K_prime := by rw [hiblen]; exact hkple
    have hex : ∃ b, e.intermediateBlocks.get? (id - 1) = some b := by
      cases hq : e.intermediateBlocks.get? (id - 1) with
      | some b => exact ⟨b, rfl⟩
      | none =>
        have := List.get?_eq_none.mp hq
        omega
    obtain ⟨b, hb⟩ := hex
    have hbmem : b ∈ e.intermediateBlocks := List.get?_mem hb
    have hbl : b.length = 200 := (hibspec b hbmem).1
    obtain ⟨hidx1, hmod, hgen⟩ := generateSymbol_systematic e id b h1 hid2 hle hb hbl
    refine ⟨hidx1, ?_, b, hb, hgen⟩
    unfold symbolIndices
    rw [if_pos h2]
  refine ⟨hpart1, ?_⟩
  have hh1 : (((hash.map (· % 256)) ++ List.replicate 32 0).take 32).length = 32 := by
    rw [List.length_take, List.length_append, List.length_map, List.length_replicate]
    omega
  have hfs32 : fileData.length < 2 ^ 32 := by omega
  have hK32 : e.K < 2 ^ 32 := by omega
  have hmp2 := hmp
  unfold createMetadataPayload at hmp2
  split at hmp2
  · exact absurd hmp2 (by simp)
  · have hraweq := Except.ok.inj hmp2
    have hbytes : ∀ x ∈ e.metadataPayload, x < 256 := by
      rw [hmdp]
      intro x hx
      rcases List.mem_append.mp hx with hx1 | hx2
      · exact createMetadataPayload_bytes filename mimeType fileData.length hash e.K 0
          raw hmp x hx1
      · rw [List.eq_of_mem_replicate hx2]
        omega
    have hmdp2 : e.metadataPayload =
        ((filename.take 255).map (· % 256)).length :: (((filename.take 255).map (· % 256)) ++
          (((mimeType.take 255).map (· % 256)).length :: (((mimeType.take 255).map (· % 256)) ++
            (be32bytes fileData.length ++ ((((hash.map (· % 256)) ++
              List.replicate 32 0).take 32) ++ (be32bytes e.K ++
                ((0 : Nat) :: List.replicate (200 - raw.length) 0))))))) := by
      rw [hmdp, ← hraweq]
      simp [List.append_assoc]
    have hm : parseMetadataPayload (e.metadataPayload.map (· % 256)) =
        .ok ⟨(filename.take 255).map (· % 256), (mimeType.take 255).map (· % 256),
          fileData.length, ((hash.map (· % 256)) ++ List.replicate 32 0).take 32, e.K, 0⟩ := by
      rw [mapMod256_eq _ hbytes, hmdp2]
      have hcan := parseMetadata_canonical ((filename.take 255).map (· % 256))
        ((mimeType.take 255).map (· % 256)) fileData.length
        (((hash.map (· % 256)) ++ List.replicate 32 0).take 32) e.K 0
        (List.replicate (200 - raw.length) 0) hfs32 hh1 hK32
      simpa using hcan
    have hmetapkt : generateSymbol e 0 =
        some (createPacket e.fileId e.K_prime 0 e.metadataPayload true 200 0 0) := by
      unfold generateSymbol
      rw [if_pos rfl]
    have hdata : ∀ t ∈ List.range (e.K + (generateParityMap e.K (ceilSqrt e.K)).length),
        (generateSymbol e (t + 1)).getD [] =
          createPacket e.fileId e.K_prime (t + 1) ((e.intermediateBlocks.get? t).getD [])
            false 200 0 0 := by
      intro t ht
      have htk := List.mem_range.mp ht
      obtain ⟨_, _, b, hb, hgen⟩ := hpart1 (t + 1) (by omega) (by omega)
      rw [show t + 1 - 1 = t from rfl] at hb
      rw [hgen, hb]
      rfl
    have htx : (List.range (e.K + (generateParityMap e.K (ceilSqrt e.K)).length + 1)).map
        (fun id => (generateSymbol e id).getD []) =
        createPacket e.fileId e.K_prime 0 e.metadataPayload true 200 0 0 ::
        (((List.range (e.K + (generateParityMap e.K (ceilSqrt e.K)).length)).map
          (fun t => (t + 1, (e.intermediateBlocks.get? t).getD []))).map
          (fun q => createPacket e.fileId e.K_prime q.1 q.2 false 200 0 0)) := by
      rw [List.range_succ_eq_map]
      simp only [List.map_cons, List.map_map]
      have hhead : (generateSymbol e 0).getD [] =
          createPacket e.fileId e.K_prime 0 e.metadataPayload true 200 0 0 := by
        rw [hmetapkt]
        rfl
      rw [hhead]
      congr 1
      refine List.map_congr_left ?_
      intro t ht
      exact hdata t ht
    have hl : ∀ q ∈ (List.range (e.K + (generateParityMap e.K (ceilSqrt e.K)).length)).map
        (fun t => (t + 1, (e.intermediateBlocks.get? t).getD [])),
        1 ≤ q.1 ∧ q.1 ≤ e.K + (generateParityMap e.K (ceilSqrt e.K)).length ∧
          q.1 ∉ (insert 0 ∅ : Finset Nat) := by
      intro q hq
      obtain ⟨t, ht, hqe⟩ := List.mem_map.mp hq
      have htk := List.mem_range.mp ht
      rw [← hqe]
      refine ⟨by omega, by omega, ?_⟩
      intro hmem
      rcases Finset.mem_insert.mp hmem with heq | hmem2
      · omega
      · exact absurd hmem2 (Finset.not_mem_empty _)
    have hnodup : (((List.range (e.K + (generateParityMap e.K (ceilSqrt e.K)).length)).map
        (fun t => (t + 1, (e.intermediateBlocks.get? t).getD []))).map Prod.fst).Nodup := by
      rw [List.map_map]
      exact List.Nodup.map (fun a b hab => by
        have : a + 1 = b + 1 := hab
        omega) (List.nodup_range _)
    obtain ⟨bl2, sv2, ssv2, seen2, hfold, hmono, hass⟩ :=
      fold_meta_systematic e.fileId e.K_prime e.K
        (e.K + (generateParityMap e.K (ceilSqrt e.K)).length) (ceilSqrt e.K)
        (generateParityMap e.K (ceilSqrt e.K))
        ⟨(filename.take 255).map (· % 256), (mimeType.take 255).map (· % 256),
          fileData.length, ((hash.map (· % 256)) ++ List.replicate 32 0).take 32, e.K, 0⟩
        hf32 hKp32 hkp32
        ((List.range (e.K + (generateParityMap e.K (ceilSqrt e.K)).length)).map
          (fun t => (t + 1, (e.intermediateBlocks.get? t).getD [])))
        (List.replicate (e.K + (generateParityMap e.K (ceilSqrt e.K)).length) none) 0 0
        (insert 0 ∅) hl hnodup
    have hrun : runDecoder ((List.range
        (e.K + (generateParityMap e.K (ceilSqrt e.K)).length + 1)).map
        (fun id => (generateSymbol e id).getD [])) =
        metaState e.fileId e.K (e.K + (generateParityMap e.K (ceilSqrt e.K)).length)
          (ceilSqrt e.K) (generateParityMap e.K (ceilSqrt e.K))
          ⟨(filename.take 255).map (· % 256), (mimeType.take 255).map (· % 256),
            fileData.length, ((hash.map (· % 256)) ++ List.replicate 32 0).take 32, e.K, 0⟩
          bl2 sv2 ssv2 seen2 := by
      rw [htx]
      unfold runDecoder
      simp only [List.foldl_cons]
      rw [receive_metadata_init e.fileId e.K_prime e.metadataPayload
        ⟨(filename.take 255).map (· % 256), (mimeType.take 255).map (· % 256),
          fileData.length, ((hash.map (· % 256)) ++ List.replicate 32 0).take 32, e.K, 0⟩
        hf32 hKp32 hm]
      exact hfold
    rw [hrun]
    have hall : ∀ i, i < e.K → (jsGet bl2 i).isSome = true := by
      intro i hi
      have hmem : (i + 1, (e.intermediateBlocks.get? i).getD []) ∈
          (List.range (e.K + (generateParityMap e.K (ceilSqrt e.K)).length)).map
            (fun t => (t + 1, (e.intermediateBlocks.get? t).getD [])) :=
        List.mem_map_of_mem _ (List.mem_range.mpr (by omega))
      have hne := hass _ hmem
      cases hx : jsGet bl2 i with
      | none => exact absurd hx hne
      | some v => rfl
    have hsb : solvedBelow e.K bl2 = e.K := (solvedBelow_eq_iff e.K bl2).mpr hall
    have hinv : counterInv (metaState e.fileId e.K
        (e.K + (generateParityMap e.K (ceilSqrt e.K)).length)
        (ceilSqrt e.K) (generateParityMap e.K (ceilSqrt e.K))
        ⟨(filename.take 255).map (· % 256), (mimeType.take 255).map (· % 256),
          fileData.length, ((hash.map (· % 256)) ++ List.replicate 32 0).take 32, e.K, 0⟩
        bl2 sv2 ssv2 seen2) := by
      rw [← hrun]
      unfold runDecoder
      exact foldl_receive_counterInv _ initDecoder (fun _ => rfl)
        (fun m2 hm2 => absurd hm2 (by simp [initDecoder]))
    obtain ⟨hK3, hpm3, hss3⟩ := hinv _ rfl
    have hss4 : ssv2 = solvedBelow e.K bl2 := hss3
    unfold DecState.isComplete metaState
    dsimp only
    simp only [hss4, hsb, decide_eq_true_eq]

set_option maxRecDepth 1000000 in
/-- C5 counterexample to the claim as stated: for the repository's own
450-byte test file (`K = 3`) the encoder's `K′` is `9`, the canonical
`K + |parityMap|` is only `7`, and `generateSymbol(8)` — required by the
claim's plan of transmitting ids `1 … K′` — throws instead of emitting a
symbol, so a perfectly received session of `K′` packets cannot even be
produced. -/
theorem c5_claim_counterexample :
    (encK3.toOption.map (fun e =>
      (e.K_prime, e.K + (generateParityMap e.K (ceilSqrt e.K)).length,
        generateSymbol e 8))) = some (9, 7, none) := by
  decide

set_option maxRecDepth 1000000 in
/-- Witness for the amended C5 on the one-block file: metadata plus the
canonical systematic ids complete the decode. -/
theorem c5_systematic_transmission_witness :
    (runDecoder ((List.range
        (((createEncoder [42] [] [] hash32 5).toOption.getD ⟨0, 0, 0, 0, 0, 0, [], []⟩).K +
          (generateParityMap
            ((createEncoder [42] [] [] hash32 5).toOption.getD ⟨0, 0, 0, 0, 0, 0, [], []⟩).K
            (ceilSqrt ((createEncoder [42] [] [] hash32 5).toOption.getD
              ⟨0, 0, 0, 0, 0, 0, [], []⟩).K)).length + 1)).map
      (fun id => (generateSymbol ((createEncoder [42] [] [] hash32 5).toOption.getD
        ⟨0, 0, 0, 0, 0, 0, [], []⟩) id).getD []))).isComplete = true :=
  (c5_systematic_transmission [42] [] [] hash32 5
    ((createEncoder [42] [] [] hash32 5).toOption.getD ⟨0, 0, 0, 0, 0, 0, [], []⟩)
    (by rfl) (by decide) (by decide) (by decide)).2
